import Mathlib

/-!
A shallow embedding, in Lean 4, of the core subsystems of the AgenticOS
agent kernel (Rust), together with proofs of the specification claims
about them.

Modelling conventions:
* Rust byte buffers (`Vec<u8>` / `&[u8]`) are `List Char` where the bytes
  are interpreted as text (protocol headers), and `List Nat` where they
  are opaque payload data (memory writes).  `String::from_utf8_lossy` on
  header bytes is modelled as the identity packaging of the char list,
  which is exact for the ASCII headers the protocol uses.
* Rust `HashMap` is an association list with first-occurrence semantics
  (lookup / replace-first / remove-first); `HashSet` is a duplicate-free
  list; `VecDeque` is a list with head = front.
* Machine integers (`u64`, `usize`, `u32`) are `Nat`; none of the claims
  in scope depends on wrap-around behaviour.
* Device tensors, the transformer forward pass, the tokenizer and the
  sampler are opaque: functions that consult them take the consulted
  value as an explicit oracle argument, and the embedding records how
  often each oracle was consulted where a claim depends on it.
-/

namespace AgenticOS

/-! ## Protocol codec (src/protocol.rs) -/

/-- The thirteen opcodes of the control protocol (enum OpCode). -/
inductive OpCode where
  | ping
  | load
  | exec
  | kill
  | term
  | status
  | shutdown
  | memoryWrite
  | listModels
  | selectModel
  | modelInfo
  | setGen
  | getGen
deriving DecidableEq, Repr

/-- The arms of the opcode match block of CommandHeader::parse, in
source order: uppercase spelling paired with the opcode it selects. -/
def opcodeTable : List (String × OpCode) :=
  [("PING", .ping), ("LOAD", .load), ("EXEC", .exec), ("KILL", .kill),
   ("TERM", .term), ("STATUS", .status), ("SHUTDOWN", .shutdown),
   ("MEMW", .memoryWrite), ("LIST_MODELS", .listModels),
   ("SELECT_MODEL", .selectModel), ("MODEL_INFO", .modelInfo),
   ("SET_GEN", .setGen), ("GET_GEN", .getGen)]

/-- The opcode match block of CommandHeader::parse: maps the uppercased
first header token to an opcode, or none for the wildcard error arm. -/
def opcodeOfUpper (s : String) : Option OpCode :=
  (opcodeTable.find? (fun e => e.1 = s)).map (fun e => e.2)

/-- str::split_whitespace, on a char list: maximal runs of
non-whitespace characters, empty runs discarded.  Single accumulator
pass; `cur` holds the current word reversed. -/
def splitWhitespaceAux : List Char → List Char → List (List Char)
  | [], cur => if cur.isEmpty then [] else [cur.reverse]
  | c :: rest, cur =>
    if c.isWhitespace then
      if cur.isEmpty then splitWhitespaceAux rest []
      else cur.reverse :: splitWhitespaceAux rest []
    else splitWhitespaceAux rest (c :: cur)

/-- str::split_whitespace on a char list. -/
def splitWhitespace (cs : List Char) : List (List Char) :=
  splitWhitespaceAux cs []

/-- Digit-string value, most significant digit first. -/
def digitsToNat (cs : List Char) : Nat :=
  cs.foldl (fun n c => n * 10 + (c.toNat - Char.toNat '0')) 0

/-- str::parse::<usize> on a char list: an optional leading plus sign,
then a non-empty run of ASCII digits.  The numeric value is an
unbounded Nat (usize overflow is not modelled; all lengths in scope are
small). -/
def parseUsize (cs : List Char) : Option Nat :=
  let t := match cs with
    | '+' :: rest => rest
    | other => other
  if t.isEmpty then none
  else if t.all Char.isDigit then some (digitsToNat t) else none

/-- struct CommandHeader. -/
structure CommandHeader where
  opcode : OpCode
  agentId : String
  contentLength : Nat
deriving DecidableEq, Repr

/-- CommandHeader::parse: split the line on whitespace; require exactly
three tokens; resolve the uppercased opcode; parse the length. -/
def CommandHeader.parse (line : List Char) : Except String CommandHeader :=
  match splitWhitespace line with
  | [] => .error "Empty header"
  | [verb, agent, len] =>
    match opcodeOfUpper (String.mk (verb.map Char.toUpper)) with
    | some op =>
      match parseUsize len with
      | some n => .ok { opcode := op, agentId := String.mk agent, contentLength := n }
      | none => .error "Invalid content length"
    | none => .error ("Unknown opcode: " ++ String.mk verb)
  | _ => .error "Invalid header format. Expected: <OPCODE> <AGENT_ID> <CONTENT_LENGTH>"

/-- The list of the thirteen known (uppercase) opcode spellings. -/
def knownOpcodes : List String :=
  opcodeTable.map Prod.fst

theorem opcodeOfUpper_isSome_iff (s : String) :
    (opcodeOfUpper s).isSome = true ↔ s ∈ knownOpcodes := by
  simp only [opcodeOfUpper, knownOpcodes, Option.isSome_map', List.find?_isSome,
    List.mem_map, decide_eq_true_eq]

/-- C8.  Header parsing: CommandHeader::parse succeeds if and only if
the line splits on whitespace into exactly three tokens, the first
token uppercased is one of the thirteen known opcodes (so matching is
case-insensitive), and the third token parses as a non-negative
decimal length.  Any other token count, an unknown opcode, or an
unparseable length yields an error. -/
theorem commandHeader_parse_ok_iff (line : List Char) :
    (∃ h, CommandHeader.parse line = .ok h) ↔
      ∃ verb agent len, splitWhitespace line = [verb, agent, len] ∧
        String.mk (verb.map Char.toUpper) ∈ knownOpcodes ∧
        (parseUsize len).isSome = true := by
  constructor
  · rintro ⟨h, hok⟩
    unfold CommandHeader.parse at hok
    rcases hsp : splitWhitespace line with _ | ⟨verb, _ | ⟨agent, _ | ⟨len, _ | ⟨x, rest⟩⟩⟩⟩ <;>
      rw [hsp] at hok <;>
      simp only [] at hok
    · exact absurd hok (by simp)
    · exact absurd hok (by simp)
    · exact absurd hok (by simp)
    · refine ⟨verb, agent, len, rfl, ?_, ?_⟩
      · rw [← opcodeOfUpper_isSome_iff]
        rcases hop : opcodeOfUpper (String.mk (verb.map Char.toUpper)) with _ | op <;>
          rw [hop] at hok
        · exact absurd hok (by simp)
        · simp
      · rcases hop : opcodeOfUpper (String.mk (verb.map Char.toUpper)) with _ | op <;>
          rw [hop] at hok
        · exact absurd hok (by simp)
        · rcases hlen : parseUsize len with _ | n <;> rw [hlen] at hok
          · exact absurd hok (by simp)
          · simp
    · exact absurd hok (by simp)
  · rintro ⟨verb, agent, len, hsp, hop, hlen⟩
    rw [← opcodeOfUpper_isSome_iff, Option.isSome_iff_exists] at hop
    rw [Option.isSome_iff_exists] at hlen
    obtain ⟨op, hop⟩ := hop
    obtain ⟨n, hlen⟩ := hlen
    refine ⟨⟨op, String.mk agent, n⟩, ?_⟩
    simp [CommandHeader.parse, hsp, hop, hlen]

/-! ## Transport framer (src/transport/framing.rs, src/transport.rs) -/

/-- enum ClientState: the per-connection framing state machine. -/
inductive ClientState where
  | waitingForHeader
  | readingBody (header : CommandHeader)
deriving DecidableEq, Repr

/-- enum ParsedCommand. -/
inductive ParsedCommand where
  | ok (header : CommandHeader) (payload : List Char)
  | err (e : String)
deriving DecidableEq, Repr

/-- Rank used only for the termination measure of the framer loop:
a reading-body step with a zero-length body consumes no bytes but
returns to the header state. -/
def ClientState.rank : ClientState → Nat
  | .waitingForHeader => 0
  | .readingBody _ => 1

/-- str::trim on a char list: strip leading and trailing whitespace. -/
def trimChars (cs : List Char) : List Char :=
  ((cs.dropWhile Char.isWhitespace).reverse.dropWhile Char.isWhitespace).reverse

theorem length_pos_of_findIdx?_eq_some {p : Char → Bool} {l : List Char} {i : Nat}
    (h : l.findIdx? p = some i) : 0 < l.length := by
  cases l with
  | nil => simp [List.findIdx?] at h
  | cons a t => simp

/-- parse_available_commands: the framer loop.  Returns the commands
emitted by this call together with the final buffer contents and
connection state (the Rust function mutates buffer and state in
place). -/
def parseAvailableCommands (buffer : List Char) (state : ClientState) :
    List ParsedCommand × List Char × ClientState :=
  match state with
  | .waitingForHeader =>
    match hpos : buffer.findIdx? (fun b => b = '\n') with
    | some pos =>
      -- drain ..=pos, decode lossily (identity here) and trim
      let headerStr := trimChars (buffer.take (pos + 1))
      if headerStr.isEmpty then
        parseAvailableCommands (buffer.drop (pos + 1)) .waitingForHeader
      else
        match CommandHeader.parse headerStr with
        | .ok h =>
          if h.contentLength = 0 then
            let r := parseAvailableCommands (buffer.drop (pos + 1)) .waitingForHeader
            (.ok h [] :: r.1, r.2)
          else
            parseAvailableCommands (buffer.drop (pos + 1)) (.readingBody h)
        | .error e =>
          let r := parseAvailableCommands (buffer.drop (pos + 1)) .waitingForHeader
          (.err e :: r.1, r.2)
    | none => ([], buffer, .waitingForHeader)
  | .readingBody h =>
    if buffer.length ≥ h.contentLength then
      let payload := buffer.take h.contentLength
      let r := parseAvailableCommands (buffer.drop h.contentLength) .waitingForHeader
      (.ok h payload :: r.1, r.2)
    else ([], buffer, .readingBody h)
termination_by 2 * buffer.length + state.rank
decreasing_by
  all_goals simp only [ClientState.rank, List.length_drop]
  all_goals
    first
    | omega
    | (have hb := length_pos_of_findIdx?_eq_some hpos
       omega)

/-- Unfolding: waiting for a header with no newline buffered consumes
nothing and emits nothing. -/
theorem parse_waiting_no_newline (buffer : List Char)
    (h : buffer.findIdx? (fun b => b = '\n') = none) :
    parseAvailableCommands buffer .waitingForHeader = ([], buffer, .waitingForHeader) := by
  conv_lhs => rw [parseAvailableCommands]
  split
  · rename_i pos hpos
    rw [h] at hpos
    exact absurd hpos (by simp)
  · rfl

/-- Unfolding: waiting for a header with a first newline at index pos. -/
theorem parse_waiting_newline (buffer : List Char) (pos : Nat)
    (h : buffer.findIdx? (fun b => b = '\n') = some pos) :
    parseAvailableCommands buffer .waitingForHeader =
      (let headerStr := trimChars (buffer.take (pos + 1))
       if headerStr.isEmpty then
         parseAvailableCommands (buffer.drop (pos + 1)) .waitingForHeader
       else
         match CommandHeader.parse headerStr with
         | .ok hd =>
           if hd.contentLength = 0 then
             let r := parseAvailableCommands (buffer.drop (pos + 1)) .waitingForHeader
             (.ok hd [] :: r.1, r.2)
           else
             parseAvailableCommands (buffer.drop (pos + 1)) (.readingBody hd)
         | .error e =>
           let r := parseAvailableCommands (buffer.drop (pos + 1)) .waitingForHeader
           (.err e :: r.1, r.2)) := by
  conv_lhs => rw [parseAvailableCommands]
  split
  · rename_i pos' hpos
    rw [h] at hpos
    cases hpos
    rfl
  · rename_i hpos
    rw [h] at hpos
    exact absurd hpos (by simp)

/-- Unfolding: reading a body with enough bytes buffered. -/
theorem parse_body_ready (buffer : List Char) (hd : CommandHeader)
    (h : buffer.length ≥ hd.contentLength) :
    parseAvailableCommands buffer (.readingBody hd) =
      (let r := parseAvailableCommands (buffer.drop hd.contentLength) .waitingForHeader
       (.ok hd (buffer.take hd.contentLength) :: r.1, r.2)) := by
  conv_lhs => rw [parseAvailableCommands]
  rw [if_pos h]

/-- Unfolding: reading a body with too few bytes buffered consumes
nothing and emits nothing. -/
theorem parse_body_short (buffer : List Char) (hd : CommandHeader)
    (h : buffer.length < hd.contentLength) :
    parseAvailableCommands buffer (.readingBody hd) = ([], buffer, .readingBody hd) := by
  conv_lhs => rw [parseAvailableCommands]
  rw [if_neg (by omega)]

/-- The framer is insensitive to where the byte stream is cut: parsing
buffer ++ extra in one call produces the same commands and final state
as parsing buffer first and then feeding the leftover plus extra. -/
theorem parseAvailableCommands_append (buffer extra : List Char) (state : ClientState) :
    parseAvailableCommands (buffer ++ extra) state =
      ((parseAvailableCommands buffer state).1 ++
        (parseAvailableCommands
          ((parseAvailableCommands buffer state).2.1 ++ extra)
          (parseAvailableCommands buffer state).2.2).1,
       (parseAvailableCommands
          ((parseAvailableCommands buffer state).2.1 ++ extra)
          (parseAvailableCommands buffer state).2.2).2) := by
  generalize hmeas : 2 * buffer.length + state.rank = n
  induction n using Nat.strong_induction_on generalizing buffer state extra with
  | _ n ih =>
  subst hmeas
  match state with
  | .readingBody hd =>
    by_cases hge : buffer.length ≥ hd.contentLength
    · have hge' : (buffer ++ extra).length ≥ hd.contentLength := by
        rw [List.length_append]; omega
      rw [parse_body_ready buffer hd hge, parse_body_ready (buffer ++ extra) hd hge',
        List.take_append_of_le_length hge, List.drop_append_of_le_length hge]
      have hih := ih (2 * (buffer.drop hd.contentLength).length +
          ClientState.rank ClientState.waitingForHeader)
        (by simp only [ClientState.rank, List.length_drop]; omega)
        (buffer.drop hd.contentLength) extra ClientState.waitingForHeader rfl
      rw [hih]
      rfl
    · rw [parse_body_short buffer hd (by omega)]
      simp
  | .waitingForHeader =>
    cases hf : buffer.findIdx? (fun b => b = '\n') with
    | none =>
      rw [parse_waiting_no_newline buffer hf]
      simp
    | some pos =>
      have hposlt : pos < buffer.length := by
        rw [List.findIdx?_eq_some_iff_findIdx_eq] at hf
        exact hf.1
      have hple : pos + 1 ≤ buffer.length := hposlt
      have hf2 : (buffer ++ extra).findIdx? (fun b => b = '\n') = some pos := by
        rw [List.findIdx?_append, hf]
        rfl
      rw [parse_waiting_newline buffer pos hf, parse_waiting_newline (buffer ++ extra) pos hf2,
        List.take_append_of_le_length hple, List.drop_append_of_le_length hple]
      by_cases hse : (trimChars (buffer.take (pos + 1))).isEmpty
      · rw [if_pos hse, if_pos hse]
        have hih := ih (2 * (buffer.drop (pos + 1)).length +
            ClientState.rank ClientState.waitingForHeader)
          (by simp only [ClientState.rank, List.length_drop]; omega)
          (buffer.drop (pos + 1)) extra ClientState.waitingForHeader rfl
        rw [hih]
      · rw [if_neg hse, if_neg hse]
        cases hparse : CommandHeader.parse (trimChars (buffer.take (pos + 1))) with
        | ok hd =>
          dsimp only
          by_cases hcl : hd.contentLength = 0
          · rw [if_pos hcl, if_pos hcl]
            have hih := ih (2 * (buffer.drop (pos + 1)).length +
                ClientState.rank ClientState.waitingForHeader)
              (by simp only [ClientState.rank, List.length_drop]; omega)
              (buffer.drop (pos + 1)) extra ClientState.waitingForHeader rfl
            rw [hih]
            rfl
          · rw [if_neg hcl, if_neg hcl]
            have hih := ih (2 * (buffer.drop (pos + 1)).length +
                ClientState.rank (ClientState.readingBody hd))
              (by simp only [ClientState.rank, List.length_drop]; omega)
              (buffer.drop (pos + 1)) extra (ClientState.readingBody hd) rfl
            rw [hih]
        | error e =>
          dsimp only
          have hih := ih (2 * (buffer.drop (pos + 1)).length +
              ClientState.rank ClientState.waitingForHeader)
            (by simp only [ClientState.rank, List.length_drop]; omega)
            (buffer.drop (pos + 1)) extra ClientState.waitingForHeader rfl
          rw [hih]
          rfl

theorem findIdx?_newline_at_end (line rest : List Char) (h : '\n' ∉ line) :
    (line ++ '\n' :: rest).findIdx? (fun b => b = '\n') = some line.length := by
  rw [List.findIdx?_append]
  have h1 : line.findIdx? (fun b => b = '\n') = none := by
    rw [List.findIdx?_eq_none_iff]
    intro a ha
    simp only [decide_eq_false_iff_not]
    intro hx
    exact h (hx ▸ ha)
  rw [h1]
  simp [List.findIdx?_cons]

/-- A byte stream that validly encodes a list of well-formed commands:
each command is a header line (no interior newline, non-blank after
trimming, parsing successfully) terminated by a newline and followed by
exactly content-length payload bytes. -/
inductive EncodesStream : List Char → List (CommandHeader × List Char) → Prop where
  | nil : EncodesStream [] []
  | cons (line payload rest : List Char) (hd : CommandHeader)
      (cmds : List (CommandHeader × List Char))
      (hnl : '\n' ∉ line)
      (hne : (trimChars (line ++ ['\n'])).isEmpty = false)
      (hparse : CommandHeader.parse (trimChars (line ++ ['\n'])) = .ok hd)
      (hlen : payload.length = hd.contentLength)
      (hrest : EncodesStream rest cmds) :
      EncodesStream (line ++ '\n' :: (payload ++ rest)) ((hd, payload) :: cmds)

/-- One framer call on a whole valid stream emits exactly the encoded
commands, in order, with identical payloads, leaving an empty buffer
in the waiting state. -/
theorem parse_encodes (stream : List Char) (cmds : List (CommandHeader × List Char))
    (h : EncodesStream stream cmds) :
    parseAvailableCommands stream .waitingForHeader =
      (cmds.map (fun pc => ParsedCommand.ok pc.1 pc.2), [], .waitingForHeader) := by
  induction h with
  | nil =>
    rw [parse_waiting_no_newline [] (by simp)]
    rfl
  | cons line payload rest hd cmds hnl hne hparse hlen hrest ihenc =>
    have hf := findIdx?_newline_at_end line (payload ++ rest) hnl
    rw [parse_waiting_newline _ _ hf]
    have hlen1 : (line ++ ['\n']).length = line.length + 1 := by simp
    have htake : (line ++ '\n' :: (payload ++ rest)).take (line.length + 1) = line ++ ['\n'] := by
      rw [List.append_cons line '\n' (payload ++ rest), List.take_left' hlen1]
    have hdrop : (line ++ '\n' :: (payload ++ rest)).drop (line.length + 1) = payload ++ rest := by
      rw [List.append_cons line '\n' (payload ++ rest), List.drop_left' hlen1]
    rw [htake, hdrop]
    simp only [hne, Bool.false_eq_true, if_false, hparse]
    by_cases hcl : hd.contentLength = 0
    · rw [if_pos hcl]
      have hpay : payload = [] := by
        rw [← List.length_eq_zero]
        omega
      subst hpay
      simp only [List.nil_append]
      rw [ihenc]
      rfl
    · rw [if_neg hcl]
      have hge : (payload ++ rest).length ≥ hd.contentLength := by
        rw [List.length_append]
        omega
      rw [parse_body_ready _ _ hge, List.take_left' hlen, List.drop_left' hlen]
      rw [ihenc]
      rfl

/-- The read loop: each chunk is appended to the connection buffer and
parse_available_commands is run once, carrying buffer and state across
reads; the emitted commands accumulate in arrival order. -/
def feedChunks : List (List Char) → List Char → ClientState →
    List ParsedCommand × List Char × ClientState
  | [], buffer, state => ([], buffer, state)
  | c :: rest, buffer, state =>
    let r1 := parseAvailableCommands (buffer ++ c) state
    let r2 := feedChunks rest r1.2.1 r1.2.2
    (r1.1 ++ r2.1, r2.2)

theorem feedChunks_eq_parse_append (chunks : List (List Char)) (hne : chunks ≠ []) :
    ∀ buffer state, feedChunks chunks buffer state =
      parseAvailableCommands (buffer ++ chunks.flatten) state := by
  induction chunks with
  | nil => exact absurd rfl hne
  | cons c rest ihc =>
    intro buffer state
    by_cases hr : rest = []
    · subst hr
      simp only [feedChunks, List.flatten_cons, List.flatten_nil, List.append_nil]
    · have hassoc : buffer ++ (c :: rest).flatten = (buffer ++ c) ++ rest.flatten := by
        simp [List.append_assoc]
      rw [hassoc, parseAvailableCommands_append (buffer ++ c) rest.flatten state]
      simp only [feedChunks]
      rw [ihc hr]

/-- C3.  Framer partition-insensitivity and round-trip: feeding any
finite partition of a valid N-command stream chunk by chunk through
parse_available_commands (buffer and state carried across calls) emits
exactly the N encoded commands in order with identical payloads; a
single chunk carrying several commands is the special case chunks =
[stream].  Additionally, a call with no complete header line buffered,
or with fewer body bytes than the pending content length, emits
nothing and consumes nothing. -/
theorem framer_partition_round_trip
    (stream : List Char) (cmds : List (CommandHeader × List Char))
    (chunks : List (List Char))
    (henc : EncodesStream stream cmds) (hjoin : chunks.flatten = stream) :
    (feedChunks chunks [] .waitingForHeader =
      (cmds.map (fun pc => ParsedCommand.ok pc.1 pc.2), [], .waitingForHeader)) ∧
    (∀ b : List Char, b.findIdx? (fun c => c = '\n') = none →
      parseAvailableCommands b .waitingForHeader = ([], b, .waitingForHeader)) ∧
    (∀ (b : List Char) (hd : CommandHeader), b.length < hd.contentLength →
      parseAvailableCommands b (.readingBody hd) = ([], b, .readingBody hd)) := by
  refine ⟨?_, parse_waiting_no_newline, parse_body_short⟩
  by_cases hch : chunks = []
  · subst hch
    have hs : stream = [] := by simpa using hjoin.symm
    subst hs
    have h0 := parse_encodes [] cmds henc
    rw [parse_waiting_no_newline [] (by simp)] at h0
    exact h0
  · rw [feedChunks_eq_parse_append chunks hch [] .waitingForHeader, List.nil_append, hjoin]
    exact parse_encodes stream cmds henc

theorem framer_partition_round_trip_witness :
    feedChunks [("PING a 0\nEX").data, ("EC b 5\nhel").data, ("lo").data]
        [] .waitingForHeader =
      ([ParsedCommand.ok ⟨OpCode.ping, "a", 0⟩ [],
        ParsedCommand.ok ⟨OpCode.exec, "b", 5⟩ ("hello").data], [], .waitingForHeader) :=
  (framer_partition_round_trip
    (("PING a 0").data ++ '\n' :: ([] ++ (("EXEC b 5").data ++ '\n' :: (("hello").data ++ []))))
    [(⟨OpCode.ping, "a", 0⟩, []), (⟨OpCode.exec, "b", 5⟩, ("hello").data)]
    [("PING a 0\nEX").data, ("EC b 5\nhel").data, ("lo").data]
    (EncodesStream.cons ("PING a 0").data [] _ ⟨OpCode.ping, "a", 0⟩ _
      (by decide) (by decide) (by rfl) (by decide)
      (EncodesStream.cons ("EXEC b 5").data ("hello").data [] ⟨OpCode.exec, "b", 5⟩ []
        (by decide) (by decide) (by rfl) (by decide)
        EncodesStream.nil))
    (by decide)).1

/-! ## Prompt families and stop markers (src/prompting.rs) -/

/-- enum PromptFamily. -/
inductive PromptFamily where
  | llama
  | qwen
  | mistral
  | unknown
deriving DecidableEq, Repr

/-- str::contains for a substring needle: some suffix of hay starts
with needle. -/
def containsSeq (hay needle : List Char) : Bool :=
  needle.isPrefixOf hay ||
    match hay with
    | [] => false
    | _ :: t => containsSeq t needle

/-- The per-family stop marker table of should_stop_on_text. -/
def stopMarkers : PromptFamily → List String
  | .llama => ["<|eot_id|>", "<|end_of_text|>"]
  | .qwen => ["<|im_end|>", "<|endoftext|>"]
  | .mistral => ["</s>"]
  | .unknown => []

/-- should_stop_on_text: stop when the text contains the universal
syscall-close marker or any of the family's stop markers. -/
def shouldStopOnText (family : PromptFamily) (text : String) : Bool :=
  if containsSeq text.data ("]]").data then true
  else (stopMarkers family).any (fun m => containsSeq text.data m.data)

/-! ## Processes and the engine step (src/engine/lifecycle.rs)

The AgentProcess record is modelled from the fields lifecycle.rs reads
and writes (the snapshot's process.rs is a stale earlier revision: it
lacks the WaitingForMemory state and the owner_id argument that
lifecycle.rs uses; the spec's process data model lists both).  The
per-process model instance (KV cache) and the logits processor are
opaque device state: the sampler is an oracle argument of the step
function, and the step result records how often the forward pass and
the sampler were consulted. -/

/-- enum ProcessState. -/
inductive ProcessState where
  | ready
  | running
  | paused
  | waitingForMemory
  | finished
deriving DecidableEq, Repr

/-- struct AgentProcess (the fields the engine step reads or writes). -/
structure AgentProcess where
  id : Nat
  ownerId : Nat
  state : ProcessState
  tokens : List Nat
  indexPos : Nat
  maxTokens : Nat
deriving DecidableEq, Repr

/-- How often a step consulted the forward pass and the sampler. -/
structure DigestStats where
  forwardPasses : Nat
  samplerCalls : Nat
deriving DecidableEq, Repr

/-- The digestion loop of step_process: while index_pos < tokens.len(),
run one forward pass, advance index_pos, and on reaching the final
index sample the produced logits.  The loop body increases index_pos by
exactly one, so the Rust while loop runs exactly
tokens.len() - index_pos iterations; that count is passed as explicit
fuel to make the recursion structural, which is exact.  Returns
(next_token, index_pos, stats). -/
def digestLoop (sample tokensLen : Nat) : Nat → Nat → Nat → DigestStats →
    Nat × Nat × DigestStats
  | 0, indexPos, nextToken, stats => (nextToken, indexPos, stats)
  | fuel + 1, indexPos, nextToken, stats =>
    if indexPos < tokensLen then
      -- one single-token forward pass at position indexPos (logits opaque)
      let stats1 : DigestStats := ⟨stats.forwardPasses + 1, stats.samplerCalls⟩
      let indexPos1 := indexPos + 1
      if indexPos1 = tokensLen then
        -- final index: squeeze the logits and consult the sampler
        digestLoop sample tokensLen fuel indexPos1 sample
          ⟨stats1.forwardPasses, stats1.samplerCalls + 1⟩
      else
        digestLoop sample tokensLen fuel indexPos1 nextToken stats1
    else (nextToken, indexPos, stats)

/-- LLMEngine::step_process.  The engine fields consulted are the two
special token ids and the family; decode is the tokenizer's
single-token detokenizer; sample is the value the process's logits
processor would return if consulted. -/
def stepProcess (eosTokenId eotTokenId : Nat) (family : PromptFamily)
    (decode : Nat → Option String) (sample : Nat) (p : AgentProcess) :
    Option (String × Nat) × AgentProcess × DigestStats :=
  if p.state = .finished ∨ p.state = .waitingForMemory ∨ p.state = .paused then
    (none, p, ⟨0, 0⟩)
  else
    let p1 := { p with state := ProcessState.running }
    let ownerId := p1.ownerId
    -- let mut next_token = 0; digestion loop
    let d := digestLoop sample p1.tokens.length (p1.tokens.length - p1.indexPos) p1.indexPos 0 ⟨0, 0⟩
    let nextToken := d.1
    let p2 := { p1 with indexPos := d.2.1, tokens := p1.tokens ++ [nextToken] }
    let textOutput := decode nextToken
    let shouldStop1 := nextToken == eosTokenId || nextToken == eotTokenId || nextToken == 2
    let shouldStop2 :=
      match textOutput with
      | some t => shouldStop1 || shouldStopOnText family t
      | none => shouldStop1
    let shouldStop3 := shouldStop2 || decide (p2.tokens.length ≥ p2.maxTokens)
    let p3 := if shouldStop3 then { p2 with state := ProcessState.finished } else p2
    (match textOutput with
     | some t => some (t, ownerId)
     | none => none,
     p3, d.2.2)

theorem digestLoop_done (sample tokensLen fuel indexPos nextToken : Nat) (stats : DigestStats)
    (h : ¬ indexPos < tokensLen) :
    digestLoop sample tokensLen fuel indexPos nextToken stats = (nextToken, indexPos, stats) := by
  cases fuel with
  | zero => rfl
  | succ fuel => simp only [digestLoop, if_neg h]

theorem digestLoop_run (sample tokensLen : Nat) :
    ∀ (fuel indexPos nextToken : Nat) (stats : DigestStats),
      indexPos < tokensLen → fuel = tokensLen - indexPos →
      digestLoop sample tokensLen fuel indexPos nextToken stats =
        (sample, tokensLen,
          ⟨stats.forwardPasses + (tokensLen - indexPos), stats.samplerCalls + 1⟩) := by
  intro fuel
  induction fuel with
  | zero => intro indexPos nextToken stats h hf; omega
  | succ fuel ih =>
    intro indexPos nextToken stats h hf
    simp only [digestLoop, if_pos h]
    by_cases h1 : indexPos + 1 = tokensLen
    · rw [if_pos h1]
      rw [digestLoop_done sample tokensLen fuel (indexPos + 1) sample _ (by omega)]
      have : tokensLen - indexPos = 1 := by omega
      simp [h1, this]
    · rw [if_neg h1]
      rw [ih (indexPos + 1) nextToken _ (by omega) (by omega)]
      refine Prod.ext rfl (Prod.ext rfl ?_)
      have h2 : tokensLen - (indexPos + 1) + 1 = tokensLen - indexPos := by omega
      show DigestStats.mk (stats.forwardPasses + 1 + (tokensLen - (indexPos + 1)))
          (stats.samplerCalls + 1) = _
      rw [DigestStats.mk.injEq]
      omega

/-- Closed form of one step on a process that is not in a no-op state:
the appended token is the sampler value when there was history to
digest and the initial value 0 otherwise; the process ends Finished
exactly when a stop condition fires, and otherwise Running. -/
theorem stepProcess_run (eos eot : Nat) (family : PromptFamily)
    (decode : Nat → Option String) (sample : Nat) (p : AgentProcess)
    (hstate : ¬(p.state = .finished ∨ p.state = .waitingForMemory ∨ p.state = .paused)) :
    stepProcess eos eot family decode sample p =
      (let nt := if p.indexPos < p.tokens.length then sample else 0
       let stop :=
         ((nt == eos || nt == eot || nt == 2) ||
           (match decode nt with
            | some t => shouldStopOnText family t
            | none => false)) ||
           decide ((p.tokens ++ [nt]).length ≥ p.maxTokens)
       ((match decode nt with
         | some t => some (t, p.ownerId)
         | none => none),
        { p with
            state := if stop then ProcessState.finished else ProcessState.running,
            indexPos := if p.indexPos < p.tokens.length then p.tokens.length else p.indexPos,
            tokens := p.tokens ++ [nt] },
        if p.indexPos < p.tokens.length then
          (⟨p.tokens.length - p.indexPos, 1⟩ : DigestStats)
        else ⟨0, 0⟩)) := by
  unfold stepProcess
  rw [if_neg hstate]
  dsimp only
  by_cases hidx : p.indexPos < p.tokens.length
  · rw [digestLoop_run sample p.tokens.length (p.tokens.length - p.indexPos) p.indexPos 0 ⟨0, 0⟩
        hidx rfl]
    dsimp only
    rw [if_pos hidx, if_pos hidx, if_pos hidx]
    cases hdec : decode sample with
    | none =>
      simp only [hdec, Bool.or_false]
      by_cases hstop : (sample == eos || sample == eot || sample == 2 ||
          decide ((p.tokens ++ [sample]).length ≥ p.maxTokens)) = true
      · rw [if_pos hstop, if_pos hstop]
        simp only [Nat.zero_add]
      · rw [if_neg hstop, if_neg hstop]
        simp only [Nat.zero_add]
    | some t =>
      simp only [hdec]
      by_cases hstop : ((sample == eos || sample == eot || sample == 2 ||
          shouldStopOnText family t) ||
          decide ((p.tokens ++ [sample]).length ≥ p.maxTokens)) = true
      · rw [if_pos hstop, if_pos hstop]
        simp only [Nat.zero_add]
      · rw [if_neg hstop, if_neg hstop]
        simp only [Nat.zero_add]
  · rw [digestLoop_done sample p.tokens.length (p.tokens.length - p.indexPos) p.indexPos 0 ⟨0, 0⟩
        hidx]
    dsimp only
    rw [if_neg hidx, if_neg hidx, if_neg hidx]
    cases hdec : decode 0 with
    | none =>
      simp only [hdec, Bool.or_false]
      by_cases hstop : ((0 : Nat) == eos || (0 : Nat) == eot || (0 : Nat) == 2 ||
          decide ((p.tokens ++ [0]).length ≥ p.maxTokens)) = true
      · rw [if_pos hstop, if_pos hstop]
      · rw [if_neg hstop, if_neg hstop]
    | some t =>
      simp only [hdec]
      by_cases hstop : (((0 : Nat) == eos || (0 : Nat) == eot || (0 : Nat) == 2 ||
          shouldStopOnText family t) ||
          decide ((p.tokens ++ [0]).length ≥ p.maxTokens)) = true
      · rw [if_pos hstop, if_pos hstop]
      · rw [if_neg hstop, if_neg hstop]

/-- C4.  Stop detection and quiescence after finish: on a steppable
process (Ready or Running), if the token the step appends (sampler
value when there is history to digest, 0 otherwise) equals the EOS id,
the EOT id or the literal id 2, or its detokenization contains a
family stop marker or the ]] substring, or the token vector reaches
max_tokens, then the step sets the state to Finished; and any
step_process call on a Finished process returns None without modifying
the process, so it never emits again. -/
theorem step_process_stop_detection (eos eot : Nat) (family : PromptFamily)
    (decode : Nat → Option String) (sample : Nat) (p : AgentProcess)
    (hstate : p.state = .ready ∨ p.state = .running)
    (hstop : (if p.indexPos < p.tokens.length then sample else 0) = eos ∨
             (if p.indexPos < p.tokens.length then sample else 0) = eot ∨
             (if p.indexPos < p.tokens.length then sample else 0) = 2 ∨
             (∃ t, decode (if p.indexPos < p.tokens.length then sample else 0) = some t ∧
                shouldStopOnText family t = true) ∨
             p.tokens.length + 1 ≥ p.maxTokens) :
    ((stepProcess eos eot family decode sample p).2.1.state = .finished ∧
     (stepProcess eos eot family decode sample p).2.1.tokens =
       p.tokens ++ [if p.indexPos < p.tokens.length then sample else 0]) ∧
    (∀ q : AgentProcess, q.state = .finished →
      stepProcess eos eot family decode sample q = (none, q, ⟨0, 0⟩)) := by
  constructor
  · rw [stepProcess_run eos eot family decode sample p
      (by rcases hstate with h | h <;> simp [h])]
    dsimp only
    refine ⟨?_, rfl⟩
    have hstopb : (((if p.indexPos < p.tokens.length then sample else 0) == eos ||
        (if p.indexPos < p.tokens.length then sample else 0) == eot ||
        (if p.indexPos < p.tokens.length then sample else 0) == 2 ||
        (match decode (if p.indexPos < p.tokens.length then sample else 0) with
         | some t => shouldStopOnText family t
         | none => false)) ||
        decide ((p.tokens ++ [if p.indexPos < p.tokens.length then sample else 0]).length ≥
          p.maxTokens)) = true := by
      rcases hstop with h | h | h | ⟨t, ht, hs⟩ | h
      · simp [h]
      · simp [h]
      · simp [h]
      · rw [ht]
        simp [hs]
      · have hge : (p.tokens ++ [if p.indexPos < p.tokens.length then sample else 0]).length ≥
            p.maxTokens := by
          rw [List.length_append]
          simpa using h
        have hd : decide ((p.tokens ++ [if p.indexPos < p.tokens.length then sample else 0]).length ≥
            p.maxTokens) = true := decide_eq_true hge
        rw [hd, Bool.or_true]
    rw [if_pos hstopb]
  · intro q hq
    unfold stepProcess
    rw [if_pos (Or.inl hq)]

theorem step_process_stop_detection_witness :
    ((stepProcess 7 8 PromptFamily.llama (fun _ => none) 7
        ⟨1, 0, ProcessState.ready, [5], 0, 100⟩).2.1.state = .finished ∧
     (stepProcess 7 8 PromptFamily.llama (fun _ => none) 7
        ⟨1, 0, ProcessState.ready, [5], 0, 100⟩).2.1.tokens = [5, 7]) ∧
    (∀ q : AgentProcess, q.state = .finished →
      stepProcess 7 8 PromptFamily.llama (fun _ => none) 7 q = (none, q, ⟨0, 0⟩)) := by
  have h := step_process_stop_detection 7 8 PromptFamily.llama (fun _ => none) 7
    ⟨1, 0, ProcessState.ready, [5], 0, 100⟩ (Or.inl rfl) (Or.inl (by decide))
  exact h

/-- C10.  Stepping a steppable process with an empty token vector runs
the digestion loop zero times (no forward pass), never consults the
sampler, and appends the literal token id 0. -/
theorem step_process_empty_tokens (eos eot : Nat) (family : PromptFamily)
    (decode : Nat → Option String) (sample : Nat) (p : AgentProcess)
    (hstate : p.state = .ready ∨ p.state = .running)
    (hempty : p.tokens = []) :
    (stepProcess eos eot family decode sample p).2.2.forwardPasses = 0 ∧
    (stepProcess eos eot family decode sample p).2.2.samplerCalls = 0 ∧
    (stepProcess eos eot family decode sample p).2.1.tokens = [0] := by
  rw [stepProcess_run eos eot family decode sample p
    (by rcases hstate with h | h <;> simp [h])]
  dsimp only
  have hidx : ¬ p.indexPos < p.tokens.length := by
    rw [hempty]
    simp
  rw [if_neg hidx, if_neg hidx]
  refine ⟨rfl, rfl, ?_⟩
  rw [hempty]
  rfl

theorem step_process_empty_tokens_witness :
    (stepProcess 7 8 PromptFamily.qwen (fun _ => none) 3
      ⟨2, 0, ProcessState.running, [], 0, 100⟩).2.2.forwardPasses = 0 ∧
    (stepProcess 7 8 PromptFamily.qwen (fun _ => none) 3
      ⟨2, 0, ProcessState.running, [], 0, 100⟩).2.2.samplerCalls = 0 ∧
    (stepProcess 7 8 PromptFamily.qwen (fun _ => none) 3
      ⟨2, 0, ProcessState.running, [], 0, 100⟩).2.1.tokens = [0] :=
  step_process_empty_tokens 7 8 PromptFamily.qwen (fun _ => none) 3
    ⟨2, 0, ProcessState.running, [], 0, 100⟩ (Or.inr rfl) rfl

/-! ## Paged memory manager (src/memory.rs)

HashMaps keyed by u64 become association lists (lookup, replace-first,
remove-first; keys stay unique because inserts of fresh keys append).
The HashSet of waiting pids is a duplicate-free list.  Physical blocks
hold opaque device tensors; only their count matters, so the pool is
the number of blocks created at construction.  Byte payloads are
opaque lists. -/

/-- Association-list lookup: first entry with the given key. -/
def alistLookup {α : Type} (m : List (Nat × α)) (k : Nat) : Option α :=
  match m with
  | [] => none
  | (k', v) :: rest => if k' = k then some v else alistLookup rest k

/-- Association-list insert: replace the first entry with the key, or
append a new entry (HashMap::insert). -/
def alistInsert {α : Type} (m : List (Nat × α)) (k : Nat) (v : α) : List (Nat × α) :=
  match m with
  | [] => [(k, v)]
  | (k', v') :: rest =>
    if k' = k then (k, v) :: rest else (k', v') :: alistInsert rest k v

/-- Association-list remove: drop the first entry with the key and
return its value (HashMap::remove). -/
def alistRemove {α : Type} (m : List (Nat × α)) (k : Nat) : Option α × List (Nat × α) :=
  match m with
  | [] => (none, [])
  | (k', v) :: rest =>
    if k' = k then (some v, rest)
    else
      let r := alistRemove rest k
      (r.1, (k', v) :: r.2)

/-- HashSet::insert on a duplicate-free list. -/
def setInsert (l : List Nat) (x : Nat) : List Nat :=
  if l.contains x then l else l ++ [x]

/-- struct MemoryConfig. -/
structure MemoryConfig where
  blockSize : Nat
  hiddenDim : Nat
  totalMemoryMb : Nat
deriving DecidableEq, Repr

/-- struct MemoryCounters. -/
structure MemoryCounters where
  allocBytes : Nat
  evictions : Nat
  swapCount : Nat
  swapFaults : Nat
  swapFailures : Nat
  oomEvents : Nat
deriving DecidableEq, Repr

def MemoryCounters.default : MemoryCounters := ⟨0, 0, 0, 0, 0, 0⟩

/-- struct NeuralMemory.  numBlocks is physical_blocks.len(); the swap
channel sender is modelled by its presence plus the queue of jobs sent
on it; the swap worker thread and result channel are outside this
model. -/
structure NeuralMemory where
  config : MemoryConfig
  numBlocks : Nat
  freeBlocks : List Nat
  pageTable : List (Nat × List Nat)
  pidToTensor : List (Nat × Nat)
  tensorToPid : List (Nat × Nat)
  pidTokenSlots : List (Nat × Nat)
  tokenSlotQuotaPerPid : Nat
  counters : MemoryCounters
  active : Bool
  swapEnabled : Bool
  swapTxPresent : Bool
  swapQueue : List (Nat × List Nat)
  waitingForMemory : List Nat
  lruOrder : List Nat
  nextTensorId : Nat
deriving Repr

/-- NeuralMemory::new.  Rust panics (division by zero) when
block_size * hidden_dim = 0, so constructed pools always have
elements_per_block > 0; Nat division makes the embedding total. -/
def NeuralMemory.new (config : MemoryConfig) : NeuralMemory :=
  let elementsPerBlock := config.blockSize * config.hiddenDim
  let bytesPerElement := 4
  let totalBytes := config.totalMemoryMb * 1024 * 1024
  let bytesPerBlock := elementsPerBlock * bytesPerElement
  let numBlocks := totalBytes / bytesPerBlock
  { config := config
    numBlocks := numBlocks
    freeBlocks := List.range numBlocks
    pageTable := []
    pidToTensor := []
    tensorToPid := []
    pidTokenSlots := []
    tokenSlotQuotaPerPid := 4096
    counters := MemoryCounters.default
    active := true
    swapEnabled := false
    swapTxPresent := false
    swapQueue := []
    waitingForMemory := []
    lruOrder := []
    nextTensorId := 1 }

/-- touch_tensor_lru: retain everything but id, then push_back id. -/
def NeuralMemory.touchTensorLru (s : NeuralMemory) (id : Nat) : NeuralMemory :=
  { s with lruOrder := s.lruOrder.filter (fun t => t ≠ id) ++ [id] }

/-- alloc: mint a fresh tensor id with an empty page list. -/
def NeuralMemory.alloc (s : NeuralMemory) : Nat × NeuralMemory :=
  let id := s.nextTensorId
  let s1 := { s with
    nextTensorId := id + 1
    pageTable := alistInsert s.pageTable id [] }
  (id, s1.touchTensorLru id)

/-- clear_tensor_pages: drain the tensor's page list back onto the free
list, subtract the released bytes (saturating), and optionally count
the discard as an eviction.  Returns the number of released blocks. -/
def NeuralMemory.clearTensorPages (s : NeuralMemory) (id : Nat) (countAsEviction : Bool) :
    Nat × NeuralMemory :=
  match alistLookup s.pageTable id with
  | none => (0, s)
  | some pages =>
    if pages.isEmpty then (0, s)
    else
      let releasedBlocks := pages.length
      let elementsPerBlock := s.config.blockSize * s.config.hiddenDim
      let releasedBytes := releasedBlocks * elementsPerBlock * 4
      let s1 := { s with
        freeBlocks := s.freeBlocks ++ pages
        pageTable := alistInsert s.pageTable id []
        counters := { s.counters with
          allocBytes := s.counters.allocBytes - releasedBytes } }
      let s2 :=
        if countAsEviction then
          { s1 with counters := { s1.counters with evictions := s1.counters.evictions + 1 } }
        else s1
      (releasedBlocks, s2)

/-- One rotation pass of next_lru_victim: pop the front, push it back,
skip the protected tensor and tensors with empty page lists.  The
attempts argument is lru_order.len() captured before the loop. -/
def NeuralMemory.nextLruVictimAux : Nat → NeuralMemory → Option Nat → Option Nat × NeuralMemory
  | 0, s, _ => (none, s)
  | attempts + 1, s, protectedId =>
    match s.lruOrder with
    | [] => (none, s)
    | candidate :: rest =>
      let s1 := { s with lruOrder := rest ++ [candidate] }
      if some candidate = protectedId then
        NeuralMemory.nextLruVictimAux attempts s1 protectedId
      else
        let hasPages :=
          match alistLookup s1.pageTable candidate with
          | some pages => !pages.isEmpty
          | none => false
        if hasPages then (some candidate, s1)
        else NeuralMemory.nextLruVictimAux attempts s1 protectedId

/-- next_lru_victim. -/
def NeuralMemory.nextLruVictim (s : NeuralMemory) (protectedId : Option Nat) :
    Option Nat × NeuralMemory :=
  NeuralMemory.nextLruVictimAux s.lruOrder.length s protectedId

/-- Sum of the page-list lengths over the page table. -/
def sumPages (pt : List (Nat × List Nat)) : Nat :=
  (pt.map (fun e => e.2.length)).sum

/-- The while loop of evict_lru_until_fit.  The loop terminates because
each iteration either frees at least one page (sumPages strictly
decreases) or increments guard toward the fixed guardLimit; the
explicit fuel passed by evictLruUntilFit dominates that lexicographic
measure, so it is never exhausted and the recursion is structural. -/
def NeuralMemory.evictLoop :
    Nat → NeuralMemory → Nat → Option Nat → Nat → Nat → Bool × NeuralMemory
  | 0, s, _, _, _, _ => (false, s)
  | fuel + 1, s, requiredBlocks, protectedId, guard, guardLimit =>
    if s.freeBlocks.length < requiredBlocks then
      if guard ≥ guardLimit then (false, s)
      else
        match s.nextLruVictim protectedId with
        | (none, s1) => (false, s1)
        | (some victim, s1) =>
          let r := s1.clearTensorPages victim true
          if r.1 = 0 then
            NeuralMemory.evictLoop fuel r.2 requiredBlocks protectedId (guard + 1) guardLimit
          else
            NeuralMemory.evictLoop fuel r.2 requiredBlocks protectedId 0 guardLimit
    else (true, s)

/-- evict_lru_until_fit. -/
def NeuralMemory.evictLruUntilFit (s : NeuralMemory) (requiredBlocks : Nat)
    (protectedId : Option Nat) : Bool × NeuralMemory :=
  let guardLimit := s.pageTable.length + 1
  NeuralMemory.evictLoop ((sumPages s.pageTable + 1) * (guardLimit + 1)) s requiredBlocks
    protectedId 0 guardLimit

/-- The recursion of chunks_exact, driven by an explicit structural
fuel: each productive step consumes n ≥ 1 elements, so any fuel of at
least l.length is enough and the fuel never runs out. -/
def chunksExactAux : Nat → Nat → List Nat → List (List Nat)
  | 0, _, _ => []
  | fuel + 1, n, l =>
    if n = 0 ∨ l.length < n then []
    else l.take n :: chunksExactAux fuel n (l.drop n)

/-- chunks_exact(4): the maximal list of disjoint 4-byte chunks;
trailing bytes that do not fill a chunk are dropped. -/
def chunksExact (n : Nat) (l : List Nat) : List (List Nat) :=
  chunksExactAux l.length n l

/-- The reported-as-OOM outcome inside write_from_bytes: increment the
oom_events counter and fail. -/
def NeuralMemory.oomFail (s : NeuralMemory) : Except String String × NeuralMemory :=
  (.error "OOM: Not enough GPU blocks",
   { s with counters := { s.counters with oomEvents := s.counters.oomEvents + 1 } })

/-- The allocation loop at the end of write_from_bytes: pop
blocks_needed blocks off the free-list front, appending each to the
tensor's page list in pop order (the device copy of each chunk is not
modelled), then bump alloc_bytes and touch the LRU. -/
def NeuralMemory.allocBlocksForWrite (s2 : NeuralMemory)
    (id blocksNeeded floatCount elementsPerBlock : Nat) :
    Except String String × NeuralMemory :=
  let taken := s2.freeBlocks.take blocksNeeded
  let s3 := { s2 with
    freeBlocks := s2.freeBlocks.drop blocksNeeded
    pageTable :=
      match alistLookup s2.pageTable id with
      | some pages => alistInsert s2.pageTable id (pages ++ taken)
      | none => s2.pageTable
    counters := { s2.counters with
      allocBytes := s2.counters.allocBytes + blocksNeeded * elementsPerBlock * 4 } }
  (.ok ("Written " ++ toString floatCount ++ " floats into " ++
    toString blocksNeeded ++ " blocks"),
   s3.touchTensorLru id)

/-- The tail of write_from_bytes after the page-list discard, given the
number of f32 values: compute blocks_needed, evict under pressure,
re-check, and either fail with OOM or allocate. -/
def NeuralMemory.writeAllocate (s1 : NeuralMemory) (id floatCount : Nat) :
    Except String String × NeuralMemory :=
  let elementsPerBlock := s1.config.blockSize * s1.config.hiddenDim
  let blocksNeeded := (floatCount + elementsPerBlock - 1) / elementsPerBlock
  let e :=
    if s1.freeBlocks.length < blocksNeeded then s1.evictLruUntilFit blocksNeeded (some id)
    else (true, s1)
  if !e.1 then e.2.oomFail
  else if e.2.freeBlocks.length < blocksNeeded then e.2.oomFail
  else e.2.allocBlocksForWrite id blocksNeeded floatCount elementsPerBlock

/-- write_from_bytes.  The raw bytes are reinterpreted as little-endian
f32 values chunk by chunk; the float values themselves are opaque (the
device copy is not modelled), only the chunk count drives allocation.
The body is split across oomFail / allocBlocksForWrite / writeAllocate
above, phase by phase in source order. -/
def NeuralMemory.writeFromBytes (s : NeuralMemory) (id : Nat) (rawData : List Nat) :
    Except String String × NeuralMemory :=
  if !s.active then
    (.ok ("NeuralMemory disabled: write skipped for tensor " ++ toString id ++
      " (" ++ toString rawData.length ++ " bytes)"), s)
  else if (alistLookup s.pageTable id).isNone then
    (.error "Tensor ID not found", s)
  else
    let c := s.clearTensorPages id true
    let s1 := c.2
    let f32Data := chunksExact 4 rawData
    if f32Data.isEmpty then (.ok "No data", s1)
    else s1.writeAllocate id f32Data.length

/-- release_tensor. -/
def NeuralMemory.releaseTensor (s : NeuralMemory) (id : Nat) :
    Except String String × NeuralMemory :=
  if !s.active then
    (.ok ("NeuralMemory disabled: release skipped for tensor " ++ toString id), s)
  else
    match halist : alistRemove s.pageTable id with
    | (none, _) => (.error "Tensor ID not found", s)
    | (some pages, pt1) =>
      let elementsPerBlock := s.config.blockSize * s.config.hiddenDim
      let releasedBlocks := pages.length
      let releasedBytes := releasedBlocks * elementsPerBlock * 4
      let s1 := { s with
        pageTable := pt1
        freeBlocks := s.freeBlocks ++ pages
        counters := { s.counters with
          allocBytes := s.counters.allocBytes - releasedBytes } }
      let rpid := alistRemove s1.tensorToPid id
      let s2 :=
        match rpid.1 with
        | some pid =>
          { s1 with
            tensorToPid := rpid.2
            pidToTensor := (alistRemove s1.pidToTensor pid).2
            pidTokenSlots := (alistRemove s1.pidTokenSlots pid).2 }
        | none => { s1 with tensorToPid := rpid.2 }
      let s3 := { s2 with lruOrder := s2.lruOrder.filter (fun t => t ≠ id) }
      (.ok ("Released tensor " ++ toString id ++ " (" ++ toString releasedBlocks ++ " blocks)"),
       s3)

/-- register_process. -/
def NeuralMemory.registerProcess (s : NeuralMemory) (pid tokenSlots : Nat) :
    Except String Nat × NeuralMemory :=
  if !s.active then (.ok 0, s)
  else if tokenSlots = 0 then
    (.error "NeuralMemory: token_slots must be > 0",
     { s with counters := { s.counters with oomEvents := s.counters.oomEvents + 1 } })
  else if tokenSlots > s.tokenSlotQuotaPerPid then
    (.error ("NeuralMemory: PID " ++ toString pid ++ " requested " ++ toString tokenSlots ++
       " token slots > quota " ++ toString s.tokenSlotQuotaPerPid),
     { s with counters := { s.counters with oomEvents := s.counters.oomEvents + 1 } })
  else
    match alistLookup s.pidToTensor pid with
    | some existing =>
      let s1 := { s with pidTokenSlots := alistInsert s.pidTokenSlots pid tokenSlots }
      (.ok existing, s1.touchTensorLru existing)
    | none =>
      let a := s.alloc
      let tensorId := a.1
      (.ok tensorId,
       { a.2 with
         pidToTensor := alistInsert a.2.pidToTensor pid tensorId
         tensorToPid := alistInsert a.2.tensorToPid tensorId pid
         pidTokenSlots := alistInsert a.2.pidTokenSlots pid tokenSlots })

/-- release_process. -/
def NeuralMemory.releaseProcess (s : NeuralMemory) (pid : Nat) :
    Except String String × NeuralMemory :=
  if !s.active then
    (.ok ("NeuralMemory disabled: release skipped for PID " ++ toString pid), s)
  else
    let s1 := { s with waitingForMemory := s.waitingForMemory.filter (fun q => q ≠ pid) }
    match alistRemove s1.pidToTensor pid with
    | (none, p2t) => (.ok ("NeuralMemory: PID " ++ toString pid ++ " had no allocation"),
        { s1 with pidToTensor := p2t })
    | (some tensorId, p2t) =>
      let s2 := { s1 with
        pidToTensor := p2t
        pidTokenSlots := (alistRemove s1.pidTokenSlots pid).2
        tensorToPid := (alistRemove s1.tensorToPid tensorId).2 }
      s2.releaseTensor tensorId

/-- enqueue_swap: mark the pid waiting and send the job on the channel
(the send is modelled as succeeding: it fails only if the worker's
receiver was dropped). -/
def NeuralMemory.enqueueSwap (s : NeuralMemory) (pid : Nat) (payload : List Nat) :
    Except String String × NeuralMemory :=
  if !s.swapTxPresent then (.error "Swap queue is not available", s)
  else
    let s1 := { s with waitingForMemory := setInsert s.waitingForMemory pid }
    let s2 := { s1 with swapQueue := s1.swapQueue ++ [(pid, payload)] }
    (.ok ("OOM: PID " ++ toString pid ++ " queued for async swap (" ++
      toString payload.length ++ " bytes)"), s2)

/-- str::starts_with. -/
def strStartsWith (s pre : String) : Bool :=
  pre.data.isPrefixOf s.data

/-- write_for_pid_bytes. -/
def NeuralMemory.writeForPidBytes (s : NeuralMemory) (pid : Nat) (rawData : List Nat) :
    Except String String × NeuralMemory :=
  if !s.active then
    (.ok ("NeuralMemory disabled: MEMW skipped for PID " ++ toString pid ++
      " (" ++ toString rawData.length ++ " bytes)"), s)
  else
    match alistLookup s.pidToTensor pid with
    | none => (.error ("NeuralMemory: PID " ++ toString pid ++ " is not registered"), s)
    | some tensorId =>
      match s.writeFromBytes tensorId rawData with
      | (.ok msg, s1) =>
        (.ok msg, { s1 with waitingForMemory := s1.waitingForMemory.filter (fun q => q ≠ pid) })
      | (.error e, s1) =>
        if strStartsWith e "OOM:" && s1.swapEnabled then
          let s2 := { s1 with counters :=
            { s1.counters with swapFaults := s1.counters.swapFaults + 1 } }
          s2.enqueueSwap pid rawData
        else (.error e, s1)

/-! ### Block conservation invariant -/

/-- Every block index currently accounted for: the free list followed
by all page lists. -/
def allBlocks (s : NeuralMemory) : List Nat :=
  s.freeBlocks ++ (s.pageTable.map (fun e => e.2)).flatten

/-- The memory invariant: the accounted blocks are a permutation of
the blocks created at construction, and page-table keys are below the
next tensor id (so freshly minted ids are new keys). -/
def MemInv (s : NeuralMemory) : Prop :=
  List.Perm (allBlocks s) (List.range s.numBlocks) ∧
  ∀ k ∈ s.pageTable.map Prod.fst, k < s.nextTensorId

theorem alistLookup_cons_self {α : Type} {rest : List (Nat × α)} {k : Nat} {v : α} :
    alistLookup ((k, v) :: rest) k = some v := by
  simp [alistLookup]

theorem alistLookup_cons_ne {α : Type} {rest : List (Nat × α)} {k k' : Nat} {v : α}
    (h : k' ≠ k) : alistLookup ((k', v) :: rest) k = alistLookup rest k := by
  simp [alistLookup, h]

theorem alistInsert_cons_self {α : Type} {rest : List (Nat × α)} {k : Nat} {v v' : α} :
    alistInsert ((k, v') :: rest) k v = (k, v) :: rest := by
  simp [alistInsert]

theorem alistInsert_cons_ne {α : Type} {rest : List (Nat × α)} {k k' : Nat} {v v' : α}
    (h : k' ≠ k) : alistInsert ((k', v') :: rest) k v = (k', v') :: alistInsert rest k v := by
  simp [alistInsert, h]

theorem alistRemove_cons_self {α : Type} {rest : List (Nat × α)} {k : Nat} {v : α} :
    alistRemove ((k, v) :: rest) k = (some v, rest) := by
  simp [alistRemove]

theorem alistRemove_cons_ne {α : Type} {rest : List (Nat × α)} {k k' : Nat} {v : α}
    (h : k' ≠ k) : alistRemove ((k', v) :: rest) k =
      ((alistRemove rest k).1, (k', v) :: (alistRemove rest k).2) := by
  simp [alistRemove, h]

theorem alistLookup_eq_none {α : Type} {pt : List (Nat × α)} {k : Nat}
    (h : k ∉ pt.map Prod.fst) : alistLookup pt k = none := by
  induction pt with
  | nil => rfl
  | cons e rest ih =>
    rcases e with ⟨k1, v1⟩
    simp only [List.map_cons, List.mem_cons] at h
    push_neg at h
    rw [alistLookup_cons_ne (fun hx => h.1 hx.symm), ih h.2]

theorem alistInsert_of_not_mem {α : Type} {pt : List (Nat × α)} {k : Nat} (v : α)
    (h : k ∉ pt.map Prod.fst) : alistInsert pt k v = pt ++ [(k, v)] := by
  induction pt with
  | nil => rfl
  | cons e rest ih =>
    rcases e with ⟨k1, v1⟩
    simp only [List.map_cons, List.mem_cons] at h
    push_neg at h
    rw [alistInsert_cons_ne (fun hx => h.1 hx.symm), ih h.2, List.cons_append]

theorem mem_keys_alistInsert {α : Type} {pt : List (Nat × α)} {k k' : Nat} {v : α}
    (h : k' ∈ (alistInsert pt k v).map Prod.fst) : k' ∈ pt.map Prod.fst ∨ k' = k := by
  induction pt with
  | nil =>
    simp only [alistInsert, List.map_cons, List.map_nil, List.mem_singleton] at h
    exact Or.inr h
  | cons e rest ih =>
    rcases e with ⟨k1, v1⟩
    by_cases hk : k1 = k
    · subst hk
      rw [alistInsert_cons_self] at h
      simp only [List.map_cons, List.mem_cons] at h ⊢
      rcases h with h | h
      · exact Or.inr h
      · exact Or.inl (Or.inr h)
    · rw [alistInsert_cons_ne hk] at h
      simp only [List.map_cons, List.mem_cons] at h ⊢
      rcases h with h | h
      · exact Or.inl (Or.inl h)
      · rcases ih h with h2 | h2
        · exact Or.inl (Or.inr h2)
        · exact Or.inr h2

theorem mem_keys_alistRemove {α : Type} {pt : List (Nat × α)} {k k' : Nat}
    (h : k' ∈ (alistRemove pt k).2.map Prod.fst) : k' ∈ pt.map Prod.fst := by
  induction pt with
  | nil => simpa [alistRemove] using h
  | cons e rest ih =>
    rcases e with ⟨k1, v1⟩
    by_cases hk : k1 = k
    · subst hk
      rw [alistRemove_cons_self] at h
      simp only [List.map_cons, List.mem_cons]
      exact Or.inr h
    · rw [alistRemove_cons_ne hk] at h
      simp only [List.map_cons, List.mem_cons] at h ⊢
      rcases h with h | h
      · exact Or.inl h
      · exact Or.inr (ih h)

theorem flatten_alistInsert {pt : List (Nat × List Nat)} {k : Nat} {v : List Nat}
    (w : List Nat) (h : alistLookup pt k = some v) :
    List.Perm (((alistInsert pt k w).map (fun e => e.2)).flatten ++ v)
      ((pt.map (fun e => e.2)).flatten ++ w) := by
  induction pt with
  | nil => simp [alistLookup] at h
  | cons e rest ih =>
    rcases e with ⟨k1, v1⟩
    by_cases hk : k1 = k
    · subst hk
      rw [alistLookup_cons_self] at h
      cases h
      rw [alistInsert_cons_self]
      simp only [List.map_cons, List.flatten_cons]
      rw [← Multiset.coe_eq_coe]
      simp only [← Multiset.coe_add]
      abel
    · rw [alistLookup_cons_ne hk] at h
      have ihv := ih h
      rw [alistInsert_cons_ne hk]
      simp only [List.map_cons, List.flatten_cons]
      rw [← Multiset.coe_eq_coe] at ihv ⊢
      simp only [← Multiset.coe_add] at ihv ⊢
      rw [add_assoc, add_assoc, ihv]

theorem flatten_alistRemove {pt pt' : List (Nat × List Nat)} {k : Nat} {v : List Nat}
    (h : alistRemove pt k = (some v, pt')) :
    List.Perm ((pt'.map (fun e => e.2)).flatten ++ v)
      ((pt.map (fun e => e.2)).flatten) := by
  induction pt generalizing pt' with
  | nil => simp [alistRemove] at h
  | cons e rest ih =>
    rcases e with ⟨k1, v1⟩
    by_cases hk : k1 = k
    · subst hk
      rw [alistRemove_cons_self] at h
      cases h
      simp only [List.map_cons, List.flatten_cons]
      exact List.perm_append_comm
    · rw [alistRemove_cons_ne hk] at h
      rcases Prod.mk.injEq .. ▸ h with ⟨h1, h2⟩
      have ihv := @ih ((alistRemove rest k).2) (Prod.ext h1 rfl)
      subst h2
      simp only [List.map_cons, List.flatten_cons]
      rw [← Multiset.coe_eq_coe] at ihv ⊢
      simp only [← Multiset.coe_add] at ihv ⊢
      rw [add_assoc, ihv]

theorem mem_keys_of_alistLookup {α : Type} {pt : List (Nat × α)} {k : Nat} {v : α}
    (h : alistLookup pt k = some v) : k ∈ pt.map Prod.fst := by
  induction pt with
  | nil => simp [alistLookup] at h
  | cons e rest ih =>
    rcases e with ⟨k1, v1⟩
    by_cases hk : k1 = k
    · subst hk
      simp
    · rw [alistLookup_cons_ne hk] at h
      simp only [List.map_cons, List.mem_cons]
      exact Or.inr (ih h)

theorem alistLookup_alistInsert {α : Type} (pt : List (Nat × α)) (k k' : Nat) (v : α) :
    alistLookup (alistInsert pt k v) k' = if k' = k then some v else alistLookup pt k' := by
  induction pt with
  | nil =>
    by_cases h : k' = k
    · subst h
      simp [alistInsert, alistLookup]
    · simp only [alistInsert, alistLookup, if_neg (fun hx : k = k' => h hx.symm), if_neg h]
  | cons e rest ih =>
    rcases e with ⟨k1, v1⟩
    by_cases h1 : k1 = k
    · subst h1
      rw [alistInsert_cons_self]
      by_cases h2 : k' = k1
      · subst h2
        rw [if_pos rfl, alistLookup_cons_self]
      · rw [if_neg h2, alistLookup_cons_ne (fun hx => h2 hx.symm),
          alistLookup_cons_ne (fun hx => h2 hx.symm)]
    · rw [alistInsert_cons_ne h1]
      by_cases h2 : k1 = k'
      · subst h2
        rw [alistLookup_cons_self, alistLookup_cons_self,
          if_neg (fun hx : k1 = k => h1 hx)]
      · rw [alistLookup_cons_ne h2, alistLookup_cons_ne h2, ih]

theorem nextLruVictimAux_pageTable :
    ∀ (fuel : Nat) (s : NeuralMemory) (prot : Option Nat),
      (NeuralMemory.nextLruVictimAux fuel s prot).2.pageTable = s.pageTable := by
  intro fuel
  induction fuel with
  | zero => intro s prot; rfl
  | succ n ih =>
    intro s prot
    unfold NeuralMemory.nextLruVictimAux
    rcases hlru : s.lruOrder with _ | ⟨c, rest⟩
    · rfl
    · dsimp only
      split_ifs with h1 h2
      · exact ih _ _
      · rfl
      · exact ih _ _

theorem clearTensorPages_lookup_isSome (s : NeuralMemory) (id : Nat) (b : Bool) (k : Nat)
    (h : (alistLookup s.pageTable k).isSome = true) :
    (alistLookup (s.clearTensorPages id b).2.pageTable k).isSome = true := by
  unfold NeuralMemory.clearTensorPages
  cases hl : alistLookup s.pageTable id with
  | none => exact h
  | some pages =>
    dsimp only
    by_cases hemp : pages.isEmpty
    · rw [if_pos hemp]
      exact h
    · rw [if_neg hemp]
      cases b <;>
        · show (alistLookup (alistInsert s.pageTable id []) k).isSome = true
          rw [alistLookup_alistInsert]
          split_ifs with hk
          · rfl
          · exact h

theorem evictLoop_lookup_isSome :
    ∀ (fuel : Nat) (s : NeuralMemory) (req : Nat) (prot : Option Nat) (g gl k : Nat),
      (alistLookup s.pageTable k).isSome = true →
      (alistLookup (NeuralMemory.evictLoop fuel s req prot g gl).2.pageTable k).isSome = true := by
  intro fuel
  induction fuel with
  | zero => intro s req prot g gl k h; exact h
  | succ n ih =>
    intro s req prot g gl k h
    unfold NeuralMemory.evictLoop
    split_ifs with h1 h2
    · exact h
    · rcases hv : s.nextLruVictim prot with ⟨ov, s1⟩
      have hs1 : (alistLookup s1.pageTable k).isSome = true := by
        have hpt := nextLruVictimAux_pageTable s.lruOrder.length s prot
        rw [show NeuralMemory.nextLruVictimAux s.lruOrder.length s prot = s.nextLruVictim prot
          from rfl, hv] at hpt
        rw [hpt]
        exact h
      cases ov with
      | none => exact hs1
      | some victim =>
        dsimp only
        have hclear := clearTensorPages_lookup_isSome s1 victim true k hs1
        split_ifs with h3
        · exact ih _ _ _ _ _ _ hclear
        · exact ih _ _ _ _ _ _ hclear
    · exact h

theorem evictLruUntilFit_lookup_isSome (s : NeuralMemory) (req : Nat) (prot : Option Nat)
    (k : Nat) (h : (alistLookup s.pageTable k).isSome = true) :
    (alistLookup (s.evictLruUntilFit req prot).2.pageTable k).isSome = true := by
  unfold NeuralMemory.evictLruUntilFit
  exact evictLoop_lookup_isSome _ _ _ _ _ _ _ h

theorem memInv_touchTensorLru (s : NeuralMemory) (id : Nat) (h : MemInv s) :
    MemInv (s.touchTensorLru id) := h

theorem memInv_alloc (s : NeuralMemory) (h : MemInv s) : MemInv (s.alloc).2 := by
  obtain ⟨hperm, hkeys⟩ := h
  have hfresh : s.nextTensorId ∉ s.pageTable.map Prod.fst := fun hmem =>
    absurd (hkeys _ hmem) (lt_irrefl _)
  constructor
  · show List.Perm (s.freeBlocks ++
      ((alistInsert s.pageTable s.nextTensorId []).map (fun e => e.2)).flatten) _
    rw [alistInsert_of_not_mem _ hfresh]
    simpa using hperm
  · intro k hk
    show k < s.nextTensorId + 1
    rw [show ((s.alloc).2.pageTable) = alistInsert s.pageTable s.nextTensorId [] from rfl] at hk
    rcases mem_keys_alistInsert hk with h2 | h2
    · exact Nat.lt_succ_of_lt (hkeys _ h2)
    · omega

theorem memInv_clearTensorPages (s : NeuralMemory) (id : Nat) (b : Bool) (h : MemInv s) :
    MemInv (s.clearTensorPages id b).2 := by
  obtain ⟨hperm, hkeys⟩ := h
  unfold NeuralMemory.clearTensorPages
  cases hl : alistLookup s.pageTable id with
  | none => exact ⟨hperm, hkeys⟩
  | some pages =>
    dsimp only
    by_cases hemp : pages.isEmpty
    · rw [if_pos hemp]
      exact ⟨hperm, hkeys⟩
    · rw [if_neg hemp]
      have hins := @flatten_alistInsert s.pageTable id pages [] hl
      have hmemkeys : ∀ k ∈ (alistInsert s.pageTable id []).map Prod.fst,
          k < s.nextTensorId := by
        intro k hk
        rcases mem_keys_alistInsert hk with h2 | h2
        · exact hkeys _ h2
        · subst h2
          exact hkeys _ (mem_keys_of_alistLookup hl)
      have hperm' : List.Perm ((s.freeBlocks ++ pages) ++
          ((alistInsert s.pageTable id []).map (fun e => e.2)).flatten)
          (List.range s.numBlocks) := by
        rw [← Multiset.coe_eq_coe] at hins hperm ⊢
        simp only [← Multiset.coe_add, Multiset.coe_nil] at hins hperm ⊢
        calc (s.freeBlocks : Multiset Nat) + pages +
              ((alistInsert s.pageTable id []).map (fun e => e.2)).flatten
            = (s.freeBlocks : Multiset Nat) +
              (((alistInsert s.pageTable id []).map (fun e => e.2)).flatten + pages) := by
              abel
          _ = (s.freeBlocks : Multiset Nat) +
              ((s.pageTable.map (fun e => e.2)).flatten + 0) := by rw [hins]
          _ = (s.freeBlocks : Multiset Nat) + (s.pageTable.map (fun e => e.2)).flatten := by
              rw [add_zero]
          _ = (List.range s.numBlocks : List Nat) := hperm
      cases b
      · exact ⟨hperm', hmemkeys⟩
      · exact ⟨hperm', hmemkeys⟩

theorem memInv_nextLruVictimAux :
    ∀ (fuel : Nat) (s : NeuralMemory) (protectedId : Option Nat), MemInv s →
      MemInv (NeuralMemory.nextLruVictimAux fuel s protectedId).2 := by
  intro fuel
  induction fuel with
  | zero => intro s prot h; exact h
  | succ n ih =>
    intro s prot h
    unfold NeuralMemory.nextLruVictimAux
    rcases hlru : s.lruOrder with _ | ⟨c, rest⟩
    · exact h
    · dsimp only
      split_ifs with h1 h2
      · exact ih _ _ h
      · exact h
      · exact ih _ _ h

theorem memInv_evictLoop :
    ∀ (fuel : Nat) (s : NeuralMemory) (req : Nat) (prot : Option Nat) (g gl : Nat),
      MemInv s → MemInv (NeuralMemory.evictLoop fuel s req prot g gl).2 := by
  intro fuel
  induction fuel with
  | zero => intro s req prot g gl h; exact h
  | succ n ih =>
    intro s req prot g gl h
    unfold NeuralMemory.evictLoop
    split_ifs with h1 h2
    · exact h
    · rcases hv : s.nextLruVictim prot with ⟨ov, s1⟩
      have hs1 : MemInv s1 := by
        have := memInv_nextLruVictimAux s.lruOrder.length s prot h
        rw [show NeuralMemory.nextLruVictimAux s.lruOrder.length s prot = s.nextLruVictim prot
          from rfl, hv] at this
        exact this
      cases ov with
      | none => exact hs1
      | some victim =>
        dsimp only
        have hclear := memInv_clearTensorPages s1 victim true hs1
        split_ifs with h3
        · exact ih _ _ _ _ _ hclear
        · exact ih _ _ _ _ _ hclear
    · exact h

theorem memInv_evictLruUntilFit (s : NeuralMemory) (req : Nat) (prot : Option Nat)
    (h : MemInv s) : MemInv (s.evictLruUntilFit req prot).2 := by
  unfold NeuralMemory.evictLruUntilFit
  exact memInv_evictLoop _ _ _ _ _ _ h

theorem memInv_allocBlocksForWrite (s2 : NeuralMemory)
    (id blocksNeeded floatCount elementsPerBlock : Nat)
    (hsome : (alistLookup s2.pageTable id).isSome = true) (h : MemInv s2) :
    MemInv (s2.allocBlocksForWrite id blocksNeeded floatCount elementsPerBlock).2 := by
  obtain ⟨hperm, hkeys⟩ := h
  unfold NeuralMemory.allocBlocksForWrite
  cases hl : alistLookup s2.pageTable id with
  | none =>
    rw [hl] at hsome
    exact absurd hsome (by simp)
  | some pages =>
    dsimp only
    constructor
    · show List.Perm (s2.freeBlocks.drop blocksNeeded ++
        ((alistInsert s2.pageTable id
          (pages ++ s2.freeBlocks.take blocksNeeded)).map (fun e => e.2)).flatten)
        (List.range s2.numBlocks)
      have hins := @flatten_alistInsert s2.pageTable id pages
        (pages ++ s2.freeBlocks.take blocksNeeded) hl
      rw [← Multiset.coe_eq_coe] at hins hperm ⊢
      simp only [← Multiset.coe_add] at hins hperm ⊢
      have htd : ((s2.freeBlocks.take blocksNeeded : List Nat) : Multiset Nat) +
          ((s2.freeBlocks.drop blocksNeeded : List Nat) : Multiset Nat) =
          (s2.freeBlocks : Multiset Nat) := by
        rw [Multiset.coe_add, Multiset.coe_eq_coe, List.take_append_drop]
      have hcancel : ((((alistInsert s2.pageTable id
          (pages ++ s2.freeBlocks.take blocksNeeded)).map (fun e => e.2)).flatten :
            List Nat) : Multiset Nat) =
          (((s2.pageTable.map (fun e => e.2)).flatten : List Nat) : Multiset Nat) +
          ((s2.freeBlocks.take blocksNeeded : List Nat) : Multiset Nat) := by
        have h8 : ((((alistInsert s2.pageTable id
            (pages ++ s2.freeBlocks.take blocksNeeded)).map (fun e => e.2)).flatten :
              List Nat) : Multiset Nat) + (pages : Multiset Nat) =
            ((((s2.pageTable.map (fun e => e.2)).flatten : List Nat) : Multiset Nat) +
             ((s2.freeBlocks.take blocksNeeded : List Nat) : Multiset Nat)) +
            (pages : Multiset Nat) := by
          rw [hins]
          abel
        exact add_right_cancel h8
      rw [hcancel]
      calc ((s2.freeBlocks.drop blocksNeeded : List Nat) : Multiset Nat) +
            ((((s2.pageTable.map (fun e => e.2)).flatten : List Nat) : Multiset Nat) +
              ((s2.freeBlocks.take blocksNeeded : List Nat) : Multiset Nat))
          = (((s2.freeBlocks.take blocksNeeded : List Nat) : Multiset Nat) +
              ((s2.freeBlocks.drop blocksNeeded : List Nat) : Multiset Nat)) +
            (((s2.pageTable.map (fun e => e.2)).flatten : List Nat) : Multiset Nat) := by
            abel
        _ = (s2.freeBlocks : Multiset Nat) +
            (((s2.pageTable.map (fun e => e.2)).flatten : List Nat) : Multiset Nat) := by
            rw [htd]
        _ = _ := hperm
    · intro k hk
      rcases mem_keys_alistInsert hk with h7 | h7
      · exact hkeys _ h7
      · subst h7
        exact hkeys _ (mem_keys_of_alistLookup hl)

theorem memInv_writeAllocate (s1 : NeuralMemory) (id floatCount : Nat)
    (hsome : (alistLookup s1.pageTable id).isSome = true)
    (h : MemInv s1) : MemInv (s1.writeAllocate id floatCount).2 := by
  unfold NeuralMemory.writeAllocate
  dsimp only
  by_cases hc : s1.freeBlocks.length <
      (floatCount + s1.config.blockSize * s1.config.hiddenDim - 1) /
        (s1.config.blockSize * s1.config.hiddenDim)
  · rw [if_pos hc]
    have hev := memInv_evictLruUntilFit s1
      ((floatCount + s1.config.blockSize * s1.config.hiddenDim - 1) /
        (s1.config.blockSize * s1.config.hiddenDim)) (some id) h
    have hsome2 := evictLruUntilFit_lookup_isSome s1
      ((floatCount + s1.config.blockSize * s1.config.hiddenDim - 1) /
        (s1.config.blockSize * s1.config.hiddenDim)) (some id) id hsome
    split_ifs with h1 h2
    · exact hev
    · exact hev
    · exact memInv_allocBlocksForWrite _ _ _ _ _ hsome2 hev
  · rw [if_neg hc]
    split_ifs with h1
    · exact h
    · exact memInv_allocBlocksForWrite _ _ _ _ _ hsome h

theorem memInv_writeFromBytes (s : NeuralMemory) (id : Nat) (rawData : List Nat)
    (h : MemInv s) : MemInv (s.writeFromBytes id rawData).2 := by
  unfold NeuralMemory.writeFromBytes
  split_ifs with h1 h2
  · exact h
  · exact h
  · dsimp only
    have hsome : (alistLookup s.pageTable id).isSome = true := by
      cases hx : alistLookup s.pageTable id
      · rw [hx] at h2
        exact absurd rfl h2
      · rfl
    split_ifs with h3
    · exact memInv_clearTensorPages s id true h
    · exact memInv_writeAllocate _ _ _
        (clearTensorPages_lookup_isSome s id true id hsome)
        (memInv_clearTensorPages s id true h)

theorem memInv_releaseTensor (s : NeuralMemory) (id : Nat) (h : MemInv s) :
    MemInv (s.releaseTensor id).2 := by
  obtain ⟨hperm, hkeys⟩ := h
  unfold NeuralMemory.releaseTensor
  split_ifs with h1
  · exact ⟨hperm, hkeys⟩
  · rcases hr : alistRemove s.pageTable id with ⟨ov, pt1⟩
    cases ov with
    | none => exact ⟨hperm, hkeys⟩
    | some pages =>
      dsimp only
      have hflat := flatten_alistRemove hr
      have hperm1 : List.Perm ((s.freeBlocks ++ pages) ++ (pt1.map (fun e => e.2)).flatten)
          (List.range s.numBlocks) := by
        rw [← Multiset.coe_eq_coe] at hflat hperm ⊢
        simp only [← Multiset.coe_add] at hflat hperm ⊢
        calc (s.freeBlocks : Multiset Nat) + (pages : Multiset Nat) +
              ((pt1.map (fun e => e.2)).flatten : Multiset Nat)
            = (s.freeBlocks : Multiset Nat) +
              (((pt1.map (fun e => e.2)).flatten : Multiset Nat) + (pages : Multiset Nat)) := by
              abel
          _ = (s.freeBlocks : Multiset Nat) +
              ((s.pageTable.map (fun e => e.2)).flatten : Multiset Nat) := by rw [hflat]
          _ = _ := hperm
      have hkeys1 : ∀ k ∈ pt1.map Prod.fst, k < s.nextTensorId := by
        intro k hk
        exact hkeys _ (mem_keys_alistRemove (by rw [hr]; exact hk))
      rcases hrp : (alistRemove s.tensorToPid id).1 with _ | pid
      · exact ⟨hperm1, hkeys1⟩
      · exact ⟨hperm1, hkeys1⟩

theorem memInv_registerProcess (s : NeuralMemory) (pid slots : Nat) (h : MemInv s) :
    MemInv (s.registerProcess pid slots).2 := by
  unfold NeuralMemory.registerProcess
  split_ifs with h1 h2 h3
  · exact h
  · exact h
  · exact h
  · cases hl : alistLookup s.pidToTensor pid with
    | some existing => exact h
    | none => exact memInv_alloc s h

theorem memInv_releaseProcess (s : NeuralMemory) (pid : Nat) (h : MemInv s) :
    MemInv (s.releaseProcess pid).2 := by
  unfold NeuralMemory.releaseProcess
  split_ifs with h1
  · exact h
  · dsimp only
    rcases hr : alistRemove
        ({ s with waitingForMemory :=
          s.waitingForMemory.filter (fun q => q ≠ pid) } : NeuralMemory).pidToTensor pid
      with ⟨ov, p2t⟩
    cases ov with
    | none => exact h
    | some tensorId => exact memInv_releaseTensor _ tensorId h

theorem memInv_enqueueSwap (s : NeuralMemory) (pid : Nat) (payload : List Nat)
    (h : MemInv s) : MemInv (s.enqueueSwap pid payload).2 := by
  unfold NeuralMemory.enqueueSwap
  split_ifs with h1
  · exact h
  · exact h

theorem memInv_writeForPidBytes (s : NeuralMemory) (pid : Nat) (rawData : List Nat)
    (h : MemInv s) : MemInv (s.writeForPidBytes pid rawData).2 := by
  unfold NeuralMemory.writeForPidBytes
  split_ifs with h1
  · exact h
  · cases hl : alistLookup s.pidToTensor pid with
    | none => exact h
    | some tensorId =>
      dsimp only
      have hw := memInv_writeFromBytes s tensorId rawData h
      rcases hwr : s.writeFromBytes tensorId rawData with ⟨res, s1⟩
      rw [hwr] at hw
      cases res with
      | ok msg => exact hw
      | error e =>
        dsimp only
        split_ifs with h2
        · exact memInv_enqueueSwap _ pid rawData hw
        · exact hw

/-- The reachable states of the memory manager: the freshly constructed
pool followed by any sequence of the public mutating operations (LRU
eviction both occurs inside write_from_bytes and is closed over
explicitly).  The init hypothesis records that Rust panics on a
zero-sized block (division by zero), so only positive geometries
construct. -/
inductive MemReachable : NeuralMemory → Prop where
  | init (config : MemoryConfig) (h : 0 < config.blockSize * config.hiddenDim) :
      MemReachable (NeuralMemory.new config)
  | allocStep {s : NeuralMemory} : MemReachable s → MemReachable (s.alloc).2
  | registerStep {s : NeuralMemory} (pid slots : Nat) :
      MemReachable s → MemReachable (s.registerProcess pid slots).2
  | writeStep {s : NeuralMemory} (id : Nat) (raw : List Nat) :
      MemReachable s → MemReachable (s.writeFromBytes id raw).2
  | writeForPidStep {s : NeuralMemory} (pid : Nat) (raw : List Nat) :
      MemReachable s → MemReachable (s.writeForPidBytes pid raw).2
  | releaseTensorStep {s : NeuralMemory} (id : Nat) :
      MemReachable s → MemReachable (s.releaseTensor id).2
  | releaseProcessStep {s : NeuralMemory} (pid : Nat) :
      MemReachable s → MemReachable (s.releaseProcess pid).2
  | evictStep {s : NeuralMemory} (req : Nat) (prot : Option Nat) :
      MemReachable s → MemReachable (s.evictLruUntilFit req prot).2

theorem memInv_new (config : MemoryConfig) : MemInv (NeuralMemory.new config) := by
  constructor
  · unfold NeuralMemory.new allBlocks
    simp
  · intro k hk
    simp [NeuralMemory.new] at hk

theorem memReachable_memInv {s : NeuralMemory} (h : MemReachable s) : MemInv s := by
  induction h with
  | init config hcfg => exact memInv_new config
  | allocStep _ ih => exact memInv_alloc _ ih
  | registerStep pid slots _ ih => exact memInv_registerProcess _ pid slots ih
  | writeStep id raw _ ih => exact memInv_writeFromBytes _ id raw ih
  | writeForPidStep pid raw _ ih => exact memInv_writeForPidBytes _ pid raw ih
  | releaseTensorStep id _ ih => exact memInv_releaseTensor _ id ih
  | releaseProcessStep pid _ ih => exact memInv_releaseProcess _ pid ih
  | evictStep req prot _ ih => exact memInv_evictLruUntilFit _ req prot ih

/-- C1.  Block conservation: in every reachable state of the memory
manager the free-list length plus the sum of all page-list lengths
equals the number of blocks created at construction, and no block
index occurs twice across the free list and the page lists (so every
block is in the free list or in exactly one tensor's page list). -/
theorem block_conservation (s : NeuralMemory) (h : MemReachable s) :
    s.freeBlocks.length + sumPages s.pageTable = s.numBlocks ∧
    (allBlocks s).Nodup := by
  obtain ⟨hperm, _⟩ := memReachable_memInv h
  constructor
  · have hlen := hperm.length_eq
    rw [List.length_range] at hlen
    rw [← hlen]
    unfold allBlocks sumPages
    rw [List.length_append, List.length_flatten, List.map_map]
    rfl
  · exact hperm.nodup_iff.mpr (List.nodup_range _)

theorem block_conservation_witness :
    ((NeuralMemory.new ⟨512, 512, 1⟩).registerProcess 7 16).2.freeBlocks.length +
        sumPages ((NeuralMemory.new ⟨512, 512, 1⟩).registerProcess 7 16).2.pageTable =
      ((NeuralMemory.new ⟨512, 512, 1⟩).registerProcess 7 16).2.numBlocks ∧
    (allBlocks ((NeuralMemory.new ⟨512, 512, 1⟩).registerProcess 7 16).2).Nodup :=
  block_conservation _
    (MemReachable.registerStep 7 16 (MemReachable.init ⟨512, 512, 1⟩ (by decide)))

/-! ### Discard accounting, short writes, and the OOM-to-swap handoff -/

/-- The fuel of chunksExactAux is irrelevant once it covers the list
length. -/
theorem chunksExactAux_congr (n : Nat) :
    ∀ (f1 f2 : Nat) (l : List Nat), l.length ≤ f1 → l.length ≤ f2 →
      chunksExactAux f1 n l = chunksExactAux f2 n l := by
  intro f1
  induction f1 with
  | zero =>
    intro f2 l h1 h2
    have hl : l = [] := List.length_eq_zero.mp (Nat.le_zero.mp h1)
    subst hl
    cases f2 with
    | zero => rfl
    | succ m =>
      show [] = if n = 0 ∨ (0 : Nat) < n then [] else _
      rw [if_pos (by omega)]
  | succ g1 ih =>
    intro f2 l h1 h2
    cases f2 with
    | zero =>
      have hl : l = [] := List.length_eq_zero.mp (Nat.le_zero.mp h2)
      subst hl
      show (if n = 0 ∨ (0 : Nat) < n then [] else _) = []
      rw [if_pos (by omega)]
    | succ g2 =>
      show (if n = 0 ∨ l.length < n then [] else _) =
        (if n = 0 ∨ l.length < n then [] else _)
      by_cases hc : n = 0 ∨ l.length < n
      · rw [if_pos hc, if_pos hc]
      · rw [if_neg hc, if_neg hc]
        have hn : 1 ≤ n := by omega
        have hlen : (l.drop n).length ≤ g1 := by
          rw [List.length_drop]; omega
        have hlen2 : (l.drop n).length ≤ g2 := by
          rw [List.length_drop]; omega
        rw [ih g2 (l.drop n) hlen hlen2]

/-- chunks_exact yields nothing when the input is shorter than one
chunk. -/
theorem chunksExact_stop (n : Nat) (l : List Nat) (h : n = 0 ∨ l.length < n) :
    chunksExact n l = [] := by
  unfold chunksExact
  cases l with
  | nil => rfl
  | cons x xs =>
    show (if n = 0 ∨ (x :: xs).length < n then [] else _) = []
    rw [if_pos h]

/-- chunks_exact peels one full chunk off the front when the input
covers it. -/
theorem chunksExact_step (n : Nat) (l : List Nat) (h : ¬(n = 0 ∨ l.length < n)) :
    chunksExact n l = l.take n :: chunksExact n (l.drop n) := by
  unfold chunksExact
  cases l with
  | nil =>
    exfalso
    apply h
    rcases Nat.eq_zero_or_pos n with h0 | h0
    · exact Or.inl h0
    · exact Or.inr (by simpa using h0)
  | cons x xs =>
    show (if n = 0 ∨ (x :: xs).length < n then [] else _) = _
    rw [if_neg h]
    have hlen : ((x :: xs).drop n).length ≤ xs.length := by
      rw [List.length_drop]
      simp only [List.length_cons]
      omega
    rw [chunksExactAux_congr n xs.length ((x :: xs).drop n).length ((x :: xs).drop n)
      hlen (Nat.le_refl _)]

/-- Bytes beyond the last full 4-byte chunk do not change the chunk
decomposition. -/
theorem chunksExact_take4_aux :
    ∀ (n : Nat) (l : List Nat), l.length = n →
      chunksExact 4 (l.take (l.length / 4 * 4)) = chunksExact 4 l := by
  intro n
  induction n using Nat.strong_induction_on with
  | _ n ih =>
    intro l hn
    by_cases h : l.length < 4
    · have h4 : l.length / 4 = 0 := Nat.div_eq_of_lt h
      rw [h4]
      rw [chunksExact_stop 4 (l.take (0 * 4)) (Or.inr (by simp)),
        chunksExact_stop 4 l (Or.inr h)]
    · have h4 : 4 ≤ l.length := Nat.le_of_not_lt h
      have hm1 : 4 ≤ l.length / 4 * 4 := by omega
      have hm2 : l.length / 4 * 4 ≤ l.length := by omega
      rw [chunksExact_step 4 (l.take (l.length / 4 * 4))
          (by simp only [List.length_take]; omega),
        chunksExact_step 4 l (by omega)]
      rw [List.take_take, Nat.min_eq_left hm1]
      rw [List.drop_take]
      have harith : l.length / 4 * 4 - 4 = (l.drop 4).length / 4 * 4 := by
        rw [List.length_drop]; omega
      rw [harith]
      have hrec := ih (l.length - 4) (by omega) (l.drop 4) (by rw [List.length_drop])
      rw [hrec]

theorem chunksExact_take4 (l : List Nat) :
    chunksExact 4 (l.take (l.length / 4 * 4)) = chunksExact 4 l :=
  chunksExact_take4_aux l.length l rfl

/-- The eviction counter never decreases across clear_tensor_pages. -/
theorem clearTensorPages_evictions_le (s : NeuralMemory) (id : Nat) (b : Bool) :
    s.counters.evictions ≤ (s.clearTensorPages id b).2.counters.evictions := by
  unfold NeuralMemory.clearTensorPages
  cases alistLookup s.pageTable id with
  | none => exact Nat.le_refl _
  | some pages =>
    dsimp only
    split_ifs <;> first
    | exact Nat.le_refl _
    | exact Nat.le_succ _

/-- Discarding a non-empty page list with count_as_eviction = true
returns the pages to the free list, empties the tensor's page list,
and increments the evictions counter by exactly one. -/
theorem clearTensorPages_true_nonempty (s : NeuralMemory) (id : Nat) (pages : List Nat)
    (hlk : alistLookup s.pageTable id = some pages) (hne : pages ≠ []) :
    (s.clearTensorPages id true).2.freeBlocks = s.freeBlocks ++ pages ∧
    (s.clearTensorPages id true).2.counters.evictions = s.counters.evictions + 1 ∧
    alistLookup (s.clearTensorPages id true).2.pageTable id = some [] := by
  unfold NeuralMemory.clearTensorPages
  rw [hlk]
  dsimp only
  rw [if_neg (by simpa using hne)]
  refine ⟨rfl, rfl, ?_⟩
  show alistLookup (alistInsert s.pageTable id []) id = some []
  rw [alistLookup_alistInsert, if_pos rfl]

/-- next_lru_victim leaves the counters untouched. -/
theorem nextLruVictimAux_counters :
    ∀ (fuel : Nat) (s : NeuralMemory) (prot : Option Nat),
      (NeuralMemory.nextLruVictimAux fuel s prot).2.counters = s.counters := by
  intro fuel
  induction fuel with
  | zero => intro s prot; rfl
  | succ n ih =>
    intro s prot
    unfold NeuralMemory.nextLruVictimAux
    rcases hlru : s.lruOrder with _ | ⟨c, rest⟩
    · rfl
    · dsimp only
      split_ifs with h1 h2
      · exact ih _ _
      · rfl
      · exact ih _ _

/-- The eviction counter never decreases across the eviction loop. -/
theorem evictLoop_evictions_le :
    ∀ (fuel : Nat) (s : NeuralMemory) (req : Nat) (prot : Option Nat) (g gl : Nat),
      s.counters.evictions ≤
        (NeuralMemory.evictLoop fuel s req prot g gl).2.counters.evictions := by
  intro fuel
  induction fuel with
  | zero => intro s req prot g gl; exact Nat.le_refl _
  | succ n ih =>
    intro s req prot g gl
    unfold NeuralMemory.evictLoop
    split_ifs with h1 h2
    · exact Nat.le_refl _
    · rcases hv : s.nextLruVictim prot with ⟨ov, s1⟩
      have hs1 : s1.counters = s.counters := by
        have hc := nextLruVictimAux_counters s.lruOrder.length s prot
        rw [show NeuralMemory.nextLruVictimAux s.lruOrder.length s prot = s.nextLruVictim prot
          from rfl, hv] at hc
        exact hc
      cases ov with
      | none =>
        dsimp only
        rw [← hs1]
      | some victim =>
        dsimp only
        have hcl := clearTensorPages_evictions_le s1 victim true
        rw [hs1] at hcl
        split_ifs with h3
        · exact Nat.le_trans hcl (ih _ _ _ _ _)
        · exact Nat.le_trans hcl (ih _ _ _ _ _)
    · exact Nat.le_refl _

/-- evict_lru_until_fit never decreases the eviction counter. -/
theorem evictLruUntilFit_evictions_le (s : NeuralMemory) (req : Nat) (prot : Option Nat) :
    s.counters.evictions ≤ (s.evictLruUntilFit req prot).2.counters.evictions := by
  unfold NeuralMemory.evictLruUntilFit
  exact evictLoop_evictions_le _ _ _ _ _ _

/-- The allocation tail of write_from_bytes never decreases the
eviction counter (only the eviction loop inside it can increase it). -/
theorem writeAllocate_evictions_le (s1 : NeuralMemory) (id fc : Nat) :
    s1.counters.evictions ≤ (s1.writeAllocate id fc).2.counters.evictions := by
  unfold NeuralMemory.writeAllocate
  dsimp only
  by_cases hc : s1.freeBlocks.length <
      (fc + s1.config.blockSize * s1.config.hiddenDim - 1) /
        (s1.config.blockSize * s1.config.hiddenDim)
  · rw [if_pos hc]
    have hev := evictLruUntilFit_evictions_le s1
      ((fc + s1.config.blockSize * s1.config.hiddenDim - 1) /
        (s1.config.blockSize * s1.config.hiddenDim)) (some id)
    split_ifs with h1 h2
    · exact hev
    · exact hev
    · exact hev
  · rw [if_neg hc]
    split_ifs with h1
    · exact Nat.le_refl _
    · exact Nat.le_refl _

/-- write_from_bytes on an active pool and a tensor with a non-empty
page list increments the evictions counter at least once: the initial
discard is itself counted (clear_tensor_pages is called with
count_as_eviction = true). -/
theorem writeFromBytes_evictions_ge (s : NeuralMemory) (id : Nat) (raw : List Nat)
    (pages : List Nat) (hactive : s.active = true)
    (hlk : alistLookup s.pageTable id = some pages) (hne : pages ≠ []) :
    s.counters.evictions + 1 ≤ (s.writeFromBytes id raw).2.counters.evictions := by
  unfold NeuralMemory.writeFromBytes
  rw [hactive]
  dsimp only [Bool.not_true]
  rw [if_neg (by exact Bool.false_ne_true)]
  rw [show (alistLookup s.pageTable id).isNone = false from by rw [hlk]; rfl]
  rw [if_neg (by exact Bool.false_ne_true)]
  have hcl := clearTensorPages_true_nonempty s id pages hlk hne
  by_cases hemp : (chunksExact 4 raw).isEmpty = true
  · rw [if_pos hemp]
    exact Nat.le_of_eq hcl.2.1.symm
  · rw [if_neg hemp]
    exact Nat.le_trans (Nat.le_of_eq hcl.2.1.symm) (writeAllocate_evictions_le _ _ _)

/-- A concrete one-block pool (geometry 512 x 512, 1 MiB): the state
reached from the fresh pool by register_process(42, 16) followed by
write_from_bytes(1, 4 bytes).  Tensor 1 holds block 0 and the free
list is empty; no eviction has been counted because the first write
discarded an empty page list. -/
def c2State : NeuralMemory :=
  { config := ⟨512, 512, 1⟩
    numBlocks := 1
    freeBlocks := []
    pageTable := [(1, [0])]
    pidToTensor := [(42, 1)]
    tensorToPid := [(1, 42)]
    pidTokenSlots := [(42, 16)]
    tokenSlotQuotaPerPid := 4096
    counters := { MemoryCounters.default with allocBytes := 1048576 }
    active := true
    swapEnabled := false
    swapTxPresent := false
    swapQueue := []
    waitingForMemory := []
    lruOrder := [1]
    nextTensorId := 2 }

/-- C2 (counterexample to the claim as stated).  In the reachable
one-block state c2State, tensor 1 is registered with the non-empty
page list [0] and no eviction has ever been counted.  A further
write_from_bytes(1, 4 bytes) needs one block, and its initial discard
alone already refills the free list past that need (the free list
after the discard has length 1 = blocks_needed), so the LRU eviction
loop never runs; yet the call succeeds and leaves the evictions
counter at 1: the discard itself was counted as an eviction,
contradicting the claim that the counter increases only when the LRU
policy evicts to make room. -/
theorem write_discard_eviction_counterexample :
    MemReachable c2State ∧
    alistLookup c2State.pageTable 1 = some [0] ∧
    c2State.counters.evictions = 0 ∧
    (c2State.clearTensorPages 1 true).2.freeBlocks.length = 1 ∧
    (c2State.writeFromBytes 1 [0, 0, 0, 0]).1 = .ok "Written 1 floats into 1 blocks" ∧
    (c2State.writeFromBytes 1 [0, 0, 0, 0]).2.counters.evictions = 1 := by
  refine ⟨?_, rfl, rfl, rfl, rfl, rfl⟩
  have h := MemReachable.writeStep 1 [0, 0, 0, 0]
    (MemReachable.registerStep 42 16 (MemReachable.init ⟨512, 512, 1⟩ (by decide)))
  have he : (((NeuralMemory.new ⟨512, 512, 1⟩).registerProcess 42 16).2.writeFromBytes
      1 [0, 0, 0, 0]).2 = c2State := rfl
  rw [he] at h
  exact h

/-- C2 (amended).  For every active pool, registered tensor id with a
non-empty page list, and byte input, write_from_bytes discards the
current page list, returning its blocks to the free list, and that
discard IS counted as an eviction: clear_tensor_pages runs with
count_as_eviction = true, so the evictions counter grows by one for
the discard alone and by more when the LRU policy additionally evicts
other tensors to make room. -/
theorem write_discard_eviction_amended (s : NeuralMemory) (id : Nat) (raw : List Nat)
    (pages : List Nat) (hactive : s.active = true)
    (hlk : alistLookup s.pageTable id = some pages) (hne : pages ≠ []) :
    (s.clearTensorPages id true).2.freeBlocks = s.freeBlocks ++ pages ∧
    (s.clearTensorPages id true).2.counters.evictions = s.counters.evictions + 1 ∧
    s.counters.evictions + 1 ≤ (s.writeFromBytes id raw).2.counters.evictions :=
  ⟨(clearTensorPages_true_nonempty s id pages hlk hne).1,
   (clearTensorPages_true_nonempty s id pages hlk hne).2.1,
   writeFromBytes_evictions_ge s id raw pages hactive hlk hne⟩

theorem write_discard_eviction_amended_witness :
    (c2State.clearTensorPages 1 true).2.freeBlocks = c2State.freeBlocks ++ [0] ∧
    (c2State.clearTensorPages 1 true).2.counters.evictions = c2State.counters.evictions + 1 ∧
    c2State.counters.evictions + 1 ≤
      (c2State.writeFromBytes 1 [0, 0, 0, 0]).2.counters.evictions :=
  write_discard_eviction_amended c2State 1 [0, 0, 0, 0] [0] rfl rfl (by decide)

/-- C9.  Short writes: on an active pool with a registered tensor,
write_from_bytes with fewer than 4 bytes first discards the tensor's
page list (blocks return to the free list, the page list empties) and
then returns Ok "No data" without touching anything else; and in
general the trailing bytes beyond the largest multiple of 4 never
influence the call. -/
theorem write_short_input (s : NeuralMemory) (id : Nat) (pages : List Nat) (raw : List Nat)
    (hactive : s.active = true)
    (hlk : alistLookup s.pageTable id = some pages)
    (hshort : raw.length < 4) :
    s.writeFromBytes id raw = (.ok "No data", (s.clearTensorPages id true).2) ∧
    alistLookup (s.writeFromBytes id raw).2.pageTable id = some [] ∧
    (s.writeFromBytes id raw).2.freeBlocks = s.freeBlocks ++ pages ∧
    ∀ raw2 : List Nat,
      s.writeFromBytes id (raw2.take (raw2.length / 4 * 4)) = s.writeFromBytes id raw2 := by
  have hemp : (chunksExact 4 raw).isEmpty = true := by
    rw [chunksExact_stop 4 raw (Or.inr hshort)]
    rfl
  have hmain : s.writeFromBytes id raw = (.ok "No data", (s.clearTensorPages id true).2) := by
    unfold NeuralMemory.writeFromBytes
    rw [hactive]
    dsimp only [Bool.not_true]
    rw [if_neg (by exact Bool.false_ne_true)]
    rw [show (alistLookup s.pageTable id).isNone = false from by rw [hlk]; rfl]
    rw [if_neg (by exact Bool.false_ne_true)]
    rw [if_pos hemp]
  refine ⟨hmain, ?_, ?_, ?_⟩
  · rw [hmain]
    show alistLookup (s.clearTensorPages id true).2.pageTable id = some []
    by_cases hp : pages = []
    · subst hp
      have hcl : s.clearTensorPages id true = (0, s) := by
        unfold NeuralMemory.clearTensorPages
        rw [hlk]
        rfl
      rw [hcl]
      exact hlk
    · exact (clearTensorPages_true_nonempty s id pages hlk hp).2.2
  · rw [hmain]
    show (s.clearTensorPages id true).2.freeBlocks = s.freeBlocks ++ pages
    by_cases hp : pages = []
    · subst hp
      have hcl : s.clearTensorPages id true = (0, s) := by
        unfold NeuralMemory.clearTensorPages
        rw [hlk]
        rfl
      rw [hcl, List.append_nil]
    · exact (clearTensorPages_true_nonempty s id pages hlk hp).1
  · intro raw2
    unfold NeuralMemory.writeFromBytes
    by_cases hn : (alistLookup s.pageTable id).isNone = true
    · simp only [hactive, Bool.not_true, Bool.false_eq_true, if_false, if_pos hn]
    · simp only [hactive, Bool.not_true, Bool.false_eq_true, if_false, if_neg hn,
        chunksExact_take4]

theorem write_short_input_witness :
    c2State.writeFromBytes 1 [1, 2] = (.ok "No data", (c2State.clearTensorPages 1 true).2) ∧
    alistLookup (c2State.writeFromBytes 1 [1, 2]).2.pageTable 1 = some [] ∧
    (c2State.writeFromBytes 1 [1, 2]).2.freeBlocks = c2State.freeBlocks ++ [0] :=
  ⟨(write_short_input c2State 1 [0] [1, 2] rfl rfl (by decide)).1,
   (write_short_input c2State 1 [0] [1, 2] rfl rfl (by decide)).2.1,
   (write_short_input c2State 1 [0] [1, 2] rfl rfl (by decide)).2.2.1⟩

/-- clear_tensor_pages never touches the waiting-for-memory set. -/
theorem clearTensorPages_waiting (s : NeuralMemory) (id : Nat) (b : Bool) :
    (s.clearTensorPages id b).2.waitingForMemory = s.waitingForMemory := by
  unfold NeuralMemory.clearTensorPages
  cases alistLookup s.pageTable id with
  | none => rfl
  | some pages =>
    dsimp only
    split_ifs <;> rfl

/-- next_lru_victim never touches the waiting-for-memory set. -/
theorem nextLruVictimAux_waiting :
    ∀ (fuel : Nat) (s : NeuralMemory) (prot : Option Nat),
      (NeuralMemory.nextLruVictimAux fuel s prot).2.waitingForMemory = s.waitingForMemory := by
  intro fuel
  induction fuel with
  | zero => intro s prot; rfl
  | succ n ih =>
    intro s prot
    unfold NeuralMemory.nextLruVictimAux
    rcases hlru : s.lruOrder with _ | ⟨c, rest⟩
    · rfl
    · dsimp only
      split_ifs with h1 h2
      · exact ih _ _
      · rfl
      · exact ih _ _

/-- The eviction loop never touches the waiting-for-memory set. -/
theorem evictLoop_waiting :
    ∀ (fuel : Nat) (s : NeuralMemory) (req : Nat) (prot : Option Nat) (g gl : Nat),
      (NeuralMemory.evictLoop fuel s req prot g gl).2.waitingForMemory =
        s.waitingForMemory := by
  intro fuel
  induction fuel with
  | zero => intro s req prot g gl; rfl
  | succ n ih =>
    intro s req prot g gl
    unfold NeuralMemory.evictLoop
    split_ifs with h1 h2
    · rfl
    · rcases hv : s.nextLruVictim prot with ⟨ov, s1⟩
      have hs1 : s1.waitingForMemory = s.waitingForMemory := by
        have hc := nextLruVictimAux_waiting s.lruOrder.length s prot
        rw [show NeuralMemory.nextLruVictimAux s.lruOrder.length s prot = s.nextLruVictim prot
          from rfl, hv] at hc
        exact hc
      cases ov with
      | none => exact hs1
      | some victim =>
        dsimp only
        have hcl := clearTensorPages_waiting s1 victim true
        split_ifs with h3
        · rw [ih _ _ _ _ _, hcl, hs1]
        · rw [ih _ _ _ _ _, hcl, hs1]
    · rfl

/-- The allocation tail never touches the waiting-for-memory set. -/
theorem writeAllocate_waiting (s1 : NeuralMemory) (id fc : Nat) :
    (s1.writeAllocate id fc).2.waitingForMemory = s1.waitingForMemory := by
  unfold NeuralMemory.writeAllocate
  dsimp only
  by_cases hc : s1.freeBlocks.length <
      (fc + s1.config.blockSize * s1.config.hiddenDim - 1) /
        (s1.config.blockSize * s1.config.hiddenDim)
  · rw [if_pos hc]
    have hev : (s1.evictLruUntilFit
        ((fc + s1.config.blockSize * s1.config.hiddenDim - 1) /
          (s1.config.blockSize * s1.config.hiddenDim)) (some id)).2.waitingForMemory =
        s1.waitingForMemory := by
      unfold NeuralMemory.evictLruUntilFit
      exact evictLoop_waiting _ _ _ _ _ _
    split_ifs with h1 h2
    · exact hev
    · exact hev
    · exact hev
  · rw [if_neg hc]
    split_ifs with h1
    · rfl
    · rfl

/-- write_from_bytes never touches the waiting-for-memory set. -/
theorem writeFromBytes_waiting (s : NeuralMemory) (id : Nat) (raw : List Nat) :
    (s.writeFromBytes id raw).2.waitingForMemory = s.waitingForMemory := by
  unfold NeuralMemory.writeFromBytes
  split_ifs with h1 h2
  · rfl
  · rfl
  · dsimp only
    split_ifs with h3
    · exact clearTensorPages_waiting s id true
    · rw [writeAllocate_waiting, clearTensorPages_waiting]

/-- HashSet::insert puts the element in. -/
theorem mem_setInsert_self (l : List Nat) (x : Nat) : x ∈ setInsert l x := by
  unfold setInsert
  split_ifs with h
  · simpa using h
  · simp

/-- C5.  OOM-to-swap handoff.  In the source swap_enabled and swap_tx
are set and cleared only together, so an enabled swap always has the
channel present; the third hypothesis of the first part records that
coupling.  If write_from_bytes fails with an "OOM:"-prefixed error and
swap is enabled, write_for_pid_bytes bumps swap_faults, marks the pid
waiting for memory, appends the swap job carrying the original bytes,
and reports the exact queued-for-swap text; any other failure is
propagated unchanged and the waiting set is untouched. -/
theorem write_for_pid_oom_swap (s : NeuralMemory) (pid : Nat) (raw : List Nat)
    (tid : Nat) (e : String) (s1 : NeuralMemory)
    (hactive : s.active = true)
    (hreg : alistLookup s.pidToTensor pid = some tid)
    (hw : s.writeFromBytes tid raw = (.error e, s1)) :
    (strStartsWith e "OOM:" = true → s1.swapEnabled = true → s1.swapTxPresent = true →
      s.writeForPidBytes pid raw =
        (.ok ("OOM: PID " ++ toString pid ++ " queued for async swap (" ++
            toString raw.length ++ " bytes)"),
         { s1 with
             counters := { s1.counters with swapFaults := s1.counters.swapFaults + 1 }
             waitingForMemory := setInsert s1.waitingForMemory pid
             swapQueue := s1.swapQueue ++ [(pid, raw)] }) ∧
      pid ∈ setInsert s1.waitingForMemory pid) ∧
    (¬(strStartsWith e "OOM:" = true ∧ s1.swapEnabled = true) →
      s.writeForPidBytes pid raw = (.error e, s1) ∧
      s1.waitingForMemory = s.waitingForMemory) := by
  have hwaiting : s1.waitingForMemory = s.waitingForMemory := by
    have hc := writeFromBytes_waiting s tid raw
    rw [hw] at hc
    exact hc
  have hbase : s.writeForPidBytes pid raw =
      (if strStartsWith e "OOM:" && s1.swapEnabled then
        ({ s1 with counters :=
          { s1.counters with swapFaults := s1.counters.swapFaults + 1 } }).enqueueSwap pid raw
      else (.error e, s1)) := by
    unfold NeuralMemory.writeForPidBytes
    rw [hactive]
    dsimp only [Bool.not_true]
    rw [if_neg (by exact Bool.false_ne_true)]
    rw [hreg]
    dsimp only
    rw [hw]
  constructor
  · intro h1 h2 h3
    refine ⟨?_, mem_setInsert_self _ _⟩
    rw [hbase, h1, h2]
    rw [if_pos (show (true && true) = true from rfl)]
    unfold NeuralMemory.enqueueSwap
    rw [h3]
    dsimp only [Bool.not_true]
    rw [if_neg (by exact Bool.false_ne_true)]
  · intro hno
    have hcond : (strStartsWith e "OOM:" && s1.swapEnabled) = false := by
      cases hb1 : strStartsWith e "OOM:"
      · rfl
      · cases hb2 : s1.swapEnabled
        · rfl
        · exact absurd ⟨hb1, hb2⟩ hno
    rw [hbase]
    refine ⟨?_, hwaiting⟩
    simp only [hcond, Bool.false_eq_true, if_false]

/-- A concrete zero-block pool (1 MiB would be needed for one block
but total memory is 0 MB) with swap enabled: tensor 1 is registered to
pid 7 with an empty page list, so any 4-byte write goes out of memory
with no victim to evict. -/
def c5State : NeuralMemory :=
  { config := ⟨512, 512, 0⟩
    numBlocks := 0
    freeBlocks := []
    pageTable := [(1, [])]
    pidToTensor := [(7, 1)]
    tensorToPid := [(1, 7)]
    pidTokenSlots := [(7, 16)]
    tokenSlotQuotaPerPid := 4096
    counters := MemoryCounters.default
    active := true
    swapEnabled := true
    swapTxPresent := true
    swapQueue := []
    waitingForMemory := []
    lruOrder := [1]
    nextTensorId := 2 }

/-- c5State after the failed write: only oom_events has moved. -/
def c5StateOom : NeuralMemory :=
  { c5State with counters := { MemoryCounters.default with oomEvents := 1 } }

theorem write_for_pid_oom_swap_witness :
    c5State.writeForPidBytes 7 [0, 0, 0, 0] =
      (.ok ("OOM: PID " ++ toString (7 : Nat) ++ " queued for async swap (" ++
          toString (([0, 0, 0, 0] : List Nat).length) ++ " bytes)"),
       { c5StateOom with
           counters := { c5StateOom.counters with
             swapFaults := c5StateOom.counters.swapFaults + 1 }
           waitingForMemory := setInsert c5StateOom.waitingForMemory 7
           swapQueue := c5StateOom.swapQueue ++ [(7, [0, 0, 0, 0])] }) ∧
    7 ∈ setInsert c5StateOom.waitingForMemory 7 :=
  (write_for_pid_oom_swap c5State 7 [0, 0, 0, 0] 1 "OOM: Not enough GPU blocks" c5StateOom
    rfl rfl rfl).1 rfl rfl rfl

/-! ## Workload-aware model selection (src/model_catalog.rs) -/

/-- enum WorkloadClass. -/
inductive WorkloadClass where
  | fast
  | code
  | reasoning
  | general
deriving DecidableEq, Repr

/-- struct ModelEntry (paths as plain strings). -/
structure ModelEntry where
  id : String
  path : String
  family : PromptFamily
  tokenizerPath : Option String
deriving DecidableEq, Repr

/-- model_size_hint: the first maximal run of ASCII digits in the
lowercased id, parsed as a number, 0 when there is none (the
parse::<usize> overflow fallback to 0 is not modelled; ids are
short). -/
def modelSizeHint (modelId : String) : Nat :=
  let lower := modelId.toLower
  let digits := (lower.data.dropWhile (fun c => !c.isDigit)).takeWhile (fun c => c.isDigit)
  if digits.isEmpty then 0 else digitsToNat digits

/-- The family preference order of select_for_workload. -/
def familyOrder : WorkloadClass → List PromptFamily
  | .fast => [.llama, .qwen, .mistral]
  | .code => [.qwen, .llama, .mistral]
  | .reasoning => [.qwen, .llama, .mistral]
  | .general => [.llama, .qwen, .mistral]

/-- The sort key order of candidates.sort_by_key(model_size_hint). -/
def sizeLe (a b : ModelEntry) : Bool :=
  modelSizeHint a.id ≤ modelSizeHint b.id

/-- The for-loop of select_for_workload over the family preference
order: the first family with candidates wins; candidates are sorted
stably by size hint (Rust sort_by_key is a stable merge sort, as is
List.mergeSort) and Fast/General take the first, Code/Reasoning the
last; when no preferred family has entries the loop falls through to
entries.first(). -/
def pickFromFamilies (entries : List ModelEntry) (cls : WorkloadClass) :
    List PromptFamily → Option ModelEntry
  | [] => entries.head?
  | family :: rest =>
    let candidates := entries.filter (fun e => e.family == family)
    if candidates.isEmpty then pickFromFamilies entries cls rest
    else
      let sorted := candidates.mergeSort sizeLe
      match cls with
      | .fast => sorted.head?
      | .code => sorted.getLast?
      | .reasoning => sorted.getLast?
      | .general => sorted.head?

/-- select_for_workload (a pure function of the catalogue entries and
the workload class). -/
def selectForWorkload (entries : List ModelEntry) (cls : WorkloadClass) :
    Option ModelEntry :=
  if entries.isEmpty then none
  else pickFromFamilies entries cls (familyOrder cls)

theorem sizeLe_trans : ∀ (a b c : ModelEntry),
    sizeLe a b → sizeLe b c → sizeLe a c := by
  intro a b c h1 h2
  simp only [sizeLe, decide_eq_true_eq] at h1 h2 ⊢
  omega

theorem sizeLe_total : ∀ (a b : ModelEntry), sizeLe a b || sizeLe b a := by
  intro a b
  rcases Nat.le_total (modelSizeHint a.id) (modelSizeHint b.id) with h | h <;>
    simp [sizeLe, h]

/-- In a list sorted by size hint, the last element is a maximum. -/
theorem pairwise_getLast_le :
    ∀ (l : List ModelEntry), l.Pairwise (fun a b => sizeLe a b = true) →
      ∀ lst, l.getLast? = some lst → ∀ x ∈ l,
        modelSizeHint x.id ≤ modelSizeHint lst.id := by
  intro l
  induction l with
  | nil => intro _ lst h; simp at h
  | cons a t ih =>
    intro hp lst hlast x hx
    rcases List.pairwise_cons.mp hp with ⟨ha, ht⟩
    cases t with
    | nil =>
      simp at hlast hx
      subst hlast
      subst hx
      exact Nat.le_refl _
    | cons b t2 =>
      rw [List.getLast?_cons_cons] at hlast
      have hlstmem : lst ∈ b :: t2 := List.mem_of_mem_getLast? hlast
      rcases List.mem_cons.mp hx with hxa | hxt
      · subst hxa
        have := ha lst hlstmem
        simpa [sizeLe, decide_eq_true_eq] using this
      · exact ih ht lst hlast x hxt

/-- All-empty preferred families fall through to entries.first(). -/
theorem pickFromFamilies_all_empty (entries : List ModelEntry) (cls : WorkloadClass) :
    ∀ order : List PromptFamily,
      (∀ g ∈ order, entries.filter (fun e => e.family == g) = []) →
      pickFromFamilies entries cls order = entries.head? := by
  intro order
  induction order with
  | nil => intro _; rfl
  | cons f rest ih =>
    intro h
    unfold pickFromFamilies
    rw [h f (List.mem_cons_self f rest)]
    dsimp only
    exact ih (fun g hg => h g (List.mem_cons_of_mem f hg))

/-- Empty preferred families at the head of the order are skipped. -/
theorem pickFromFamilies_skip (entries : List ModelEntry) (cls : WorkloadClass)
    (tail : List PromptFamily) :
    ∀ pre : List PromptFamily,
      (∀ g ∈ pre, entries.filter (fun e => e.family == g) = []) →
      pickFromFamilies entries cls (pre ++ tail) = pickFromFamilies entries cls tail := by
  intro pre
  induction pre with
  | nil => intro _; rfl
  | cons f rest ih =>
    intro h
    show pickFromFamilies entries cls (f :: (rest ++ tail)) = _
    conv_lhs => unfold pickFromFamilies
    rw [h f (List.mem_cons_self f rest)]
    rw [if_pos (show ([] : List ModelEntry).isEmpty = true from rfl)]
    exact ih (fun g hg => h g (List.mem_cons_of_mem f hg))

/-- C6.  Workload-aware model selection: select_for_workload is a pure
function of the catalogue entries and the workload class; on an empty
catalogue it yields none; when no family of the preference order
(Llama, Qwen, Mistral for Fast/General; Qwen, Llama, Mistral for
Code/Reasoning) has entries it falls back to the first catalogue
entry; and otherwise it picks from the first family of the order that
has entries an entry whose embedded size hint (leading digit run of
the id, 0 when absent) is minimal for Fast/General and maximal for
Code/Reasoning (ties broken by the stable sort). -/
theorem select_for_workload_spec (entries : List ModelEntry) (cls : WorkloadClass) :
    (entries = [] → selectForWorkload entries cls = none) ∧
    ((∀ g ∈ familyOrder cls, entries.filter (fun e => e.family == g) = []) →
      selectForWorkload entries cls = entries.head?) ∧
    (∀ (pre post : List PromptFamily) (fam : PromptFamily),
      familyOrder cls = pre ++ fam :: post →
      (∀ g ∈ pre, entries.filter (fun e => e.family == g) = []) →
      entries.filter (fun e => e.family == fam) ≠ [] →
      ∃ e, selectForWorkload entries cls = some e ∧
        e ∈ entries.filter (fun e2 => e2.family == fam) ∧
        ((cls = .fast ∨ cls = .general) →
          ∀ e2 ∈ entries.filter (fun e2 => e2.family == fam),
            modelSizeHint e.id ≤ modelSizeHint e2.id) ∧
        ((cls = .code ∨ cls = .reasoning) →
          ∀ e2 ∈ entries.filter (fun e2 => e2.family == fam),
            modelSizeHint e2.id ≤ modelSizeHint e.id)) := by
  refine ⟨?_, ?_, ?_⟩
  · intro h
    subst h
    rfl
  · intro h
    unfold selectForWorkload
    by_cases he : entries.isEmpty = true
    · rw [if_pos he]
      rw [List.isEmpty_iff] at he
      subst he
      rfl
    · rw [if_neg he]
      exact pickFromFamilies_all_empty entries cls (familyOrder cls) h
  · intro pre post fam horder hpre hfam
    have hne : entries ≠ [] := by
      intro h
      subst h
      simp at hfam
    unfold selectForWorkload
    rw [if_neg (by simpa [List.isEmpty_iff] using hne)]
    rw [horder, pickFromFamilies_skip entries cls (fam :: post) pre hpre]
    unfold pickFromFamilies
    rw [if_neg (by simpa [List.isEmpty_iff] using hfam)]
    have hperm := List.mergeSort_perm (entries.filter (fun e => e.family == fam)) sizeLe
    have hsorted := @List.sorted_mergeSort ModelEntry sizeLe sizeLe_trans sizeLe_total
      (entries.filter (fun e => e.family == fam))
    have hsne : (entries.filter (fun e => e.family == fam)).mergeSort sizeLe ≠ [] := by
      intro h0
      apply hfam
      have hlen := hperm.length_eq
      rw [h0] at hlen
      exact List.length_eq_zero.mp hlen.symm
    rcases hse : (entries.filter (fun e => e.family == fam)).mergeSort sizeLe
      with _ | ⟨hd, tl⟩
    · exact absurd hse hsne
    have hmin : ∀ e2 ∈ entries.filter (fun e2 => e2.family == fam),
        modelSizeHint hd.id ≤ modelSizeHint e2.id := by
      intro e2 he2
      have he2s : e2 ∈ hd :: tl := by
        rw [← hse]
        exact (hperm.mem_iff).mpr he2
      rcases List.mem_cons.mp he2s with h | h
      · subst h
        exact Nat.le_refl _
      · rw [hse] at hsorted
        rcases List.pairwise_cons.mp hsorted with ⟨hh, _⟩
        simpa [sizeLe, decide_eq_true_eq] using hh e2 h
    have hdmem : hd ∈ entries.filter (fun e2 => e2.family == fam) := by
      have : hd ∈ hd :: tl := List.mem_cons_self hd tl
      rw [← hse] at this
      exact (hperm.mem_iff).mp this
    have hlast : ∀ lst, ((hd :: tl).getLast? = some lst) →
        lst ∈ entries.filter (fun e2 => e2.family == fam) ∧
        ∀ e2 ∈ entries.filter (fun e2 => e2.family == fam),
          modelSizeHint e2.id ≤ modelSizeHint lst.id := by
      intro lst hl
      have hlmem : lst ∈ hd :: tl := List.mem_of_mem_getLast? hl
      constructor
      · rw [← hse] at hlmem
        exact (hperm.mem_iff).mp hlmem
      · intro e2 he2
        have he2s : e2 ∈ hd :: tl := by
          rw [← hse]
          exact (hperm.mem_iff).mpr he2
        rw [hse] at hsorted
        exact pairwise_getLast_le (hd :: tl) hsorted lst hl e2 he2s
    rcases hgl : (hd :: tl).getLast? with _ | lst
    · have hgls : ((hd :: tl).getLast?).isSome = true := by
        rw [List.getLast?_isSome]
        simp
      rw [hgl] at hgls
      cases hgls
    cases cls with
    | fast =>
      refine ⟨hd, ?_, hdmem, ?_, ?_⟩
      · simp only [hse, List.head?_cons]
      · intro _
        exact hmin
      · intro hc
        rcases hc with h | h <;> cases h
    | general =>
      refine ⟨hd, ?_, hdmem, ?_, ?_⟩
      · simp only [hse, List.head?_cons]
      · intro _
        exact hmin
      · intro hc
        rcases hc with h | h <;> cases h
    | code =>
      refine ⟨lst, ?_, (hlast lst hgl).1, ?_, ?_⟩
      · simp only [hse, hgl]
      · intro hc
        rcases hc with h | h <;> cases h
      · intro _
        exact (hlast lst hgl).2
    | reasoning =>
      refine ⟨lst, ?_, (hlast lst hgl).1, ?_, ?_⟩
      · simp only [hse, hgl]
      · intro hc
        rcases hc with h | h <;> cases h
      · intro _
        exact (hlast lst hgl).2

/-- A small catalogue: two Llama models and one Qwen model. -/
def c6Entries : List ModelEntry :=
  [⟨"qwen2-7b", "models/qwen2-7b.gguf", .qwen, none⟩,
   ⟨"llama3-8b", "models/llama3-8b.gguf", .llama, none⟩,
   ⟨"llama2-13b", "models/llama2-13b.gguf", .llama, none⟩]

theorem select_for_workload_spec_witness :
    ∃ e, selectForWorkload c6Entries .fast = some e ∧
      e ∈ c6Entries.filter (fun e2 => e2.family == PromptFamily.llama) ∧
      ((WorkloadClass.fast = .fast ∨ WorkloadClass.fast = .general) →
        ∀ e2 ∈ c6Entries.filter (fun e2 => e2.family == PromptFamily.llama),
          modelSizeHint e.id ≤ modelSizeHint e2.id) ∧
      ((WorkloadClass.fast = .code ∨ WorkloadClass.fast = .reasoning) →
        ∀ e2 ∈ c6Entries.filter (fun e2 => e2.family == PromptFamily.llama),
          modelSizeHint e2.id ≤ modelSizeHint e.id) :=
  (select_for_workload_spec c6Entries .fast).2.2 [] [.qwen, .mistral] PromptFamily.llama
    rfl (by intro g hg; exact absurd hg (List.not_mem_nil g)) (by decide)

/-! ## Sandbox path normalization (src/tools.rs) -/

/-- std::path::Component for a Unix path (Prefix is Windows-only and
cannot occur; RootDir only occurs in absolute paths, which the
function rejects before parsing, so the constructor exists to mirror
the match arms but is never produced by pathComponents). -/
inductive PathComp where
  | normal (seg : String)
  | curDir
  | parentDir
  | rootDir
deriving DecidableEq, Repr

/-- Split a character list on '/' into raw segments. -/
def splitSegsAux : List Char → List Char → List String
  | [], acc => [String.mk acc.reverse]
  | c :: rest, acc =>
    if c = '/' then String.mk acc.reverse :: splitSegsAux rest []
    else splitSegsAux rest (c :: acc)

/-- Path::components() of a relative Unix path: empty segments
(duplicate separators) vanish, "." is CurDir, ".." is ParentDir,
anything else a Normal segment.  (components() drops interior "."
segments outright; since the CurDir arm of the fold does nothing, the
two readings coincide.) -/
def pathComponents (cs : List Char) : List PathComp :=
  ((splitSegsAux cs []).filter (fun s => s ≠ "")).map
    (fun s =>
      if s = "." then PathComp.curDir
      else if s = ".." then PathComp.parentDir
      else PathComp.normal s)

/-- Path::is_absolute on Unix: begins with '/'. -/
def isAbsolute (cs : List Char) : Bool :=
  match cs with
  | [] => false
  | c :: _ => c = '/'

/-- The component fold of normalize_relative_path: push normal
segments, ignore ".", pop on ".." unless already at the root (denied),
and refuse root/prefix components. -/
def resolveComponents (root : List String) :
    List String → List PathComp → Except String (List String)
  | out, [] => .ok out
  | out, comp :: rest =>
    match comp with
    | .normal seg => resolveComponents root (out ++ [seg]) rest
    | .curDir => resolveComponents root out rest
    | .parentDir =>
      if out = root then .error "SysCall Error: Path traversal denied."
      else resolveComponents root out.dropLast rest
    | .rootDir => .error "SysCall Error: Invalid path root/prefix."

/-- normalize_relative_path.  Paths are lists of segments; the
workspace root is the canonicalized segment list. -/
def normalizeRelativePath (root : List String) (input : List Char) :
    Except String (List String) :=
  if (trimChars input).isEmpty then .error "SysCall Error: Empty filename."
  else if (trimChars input).contains (Char.ofNat 0) then
    .error "SysCall Error: Invalid filename (contains NUL)."
  else if isAbsolute (trimChars input) then
    .error "SysCall Error: Absolute paths are not allowed."
  else
    match resolveComponents root root (pathComponents (trimChars input)) with
    | .error e => .error e
    | .ok out =>
      if !root.isPrefixOf out then .error "SysCall Error: Path escapes workspace."
      else .ok out

/-- The fold keeps the output under the root: starting from any
extension of the root, every successful outcome is an extension of the
root (the ".."-at-root guard blocks climbing above it). -/
theorem resolveComponents_jail (root : List String) :
    ∀ (comps : List PathComp) (acc : List String) (res : List String),
      resolveComponents root (root ++ acc) comps = .ok res →
      ∃ rest, res = root ++ rest := by
  intro comps
  induction comps with
  | nil =>
    intro acc res h
    refine ⟨acc, ?_⟩
    cases h
    rfl
  | cons comp rest ih =>
    intro acc res h
    cases comp with
    | normal seg =>
      rw [show resolveComponents root (root ++ acc) (.normal seg :: rest) =
          resolveComponents root ((root ++ acc) ++ [seg]) rest from rfl,
        List.append_assoc] at h
      exact ih (acc ++ [seg]) res h
    | curDir => exact ih acc res h
    | parentDir =>
      rw [show resolveComponents root (root ++ acc) (.parentDir :: rest) =
          (if root ++ acc = root then .error "SysCall Error: Path traversal denied."
           else resolveComponents root (root ++ acc).dropLast rest) from rfl] at h
      by_cases hroot : root ++ acc = root
      · rw [if_pos hroot] at h
        cases h
      · rw [if_neg hroot] at h
        have hacc : acc ≠ [] := by
          intro h0
          subst h0
          simp at hroot
        rw [List.dropLast_append_of_ne_nil _ hacc] at h
        exact ih acc.dropLast res h
    | rootDir =>
      rw [show resolveComponents root (root ++ acc) (.rootDir :: rest) =
          .error "SysCall Error: Invalid path root/prefix." from rfl] at h
      cases h

/-- C7.  Sandbox path jail: normalize_relative_path rejects empty
inputs, inputs containing NUL, absolute paths and ".." components that
would climb above the workspace root (root and prefix components only
arise in absolute paths on Unix and are rejected with them); and every
successful resolution is the workspace root extended by further
segments, so it never escapes the root. -/
theorem normalize_relative_path_spec (root : List String) (input : List Char) :
    (trimChars input = [] →
      normalizeRelativePath root input = .error "SysCall Error: Empty filename.") ∧
    ((Char.ofNat 0) ∈ trimChars input →
      normalizeRelativePath root input =
        .error "SysCall Error: Invalid filename (contains NUL).") ∧
    ((Char.ofNat 0) ∉ trimChars input → isAbsolute (trimChars input) = true →
      normalizeRelativePath root input =
        .error "SysCall Error: Absolute paths are not allowed.") ∧
    (∀ rest2, (Char.ofNat 0) ∉ trimChars input → isAbsolute (trimChars input) = false →
      trimChars input ≠ [] →
      pathComponents (trimChars input) = PathComp.parentDir :: rest2 →
      normalizeRelativePath root input =
        .error "SysCall Error: Path traversal denied.") ∧
    (∀ out, normalizeRelativePath root input = .ok out →
      ∃ rest, out = root ++ rest) := by
  refine ⟨?_, ?_, ?_, ?_, ?_⟩
  · intro h
    unfold normalizeRelativePath
    rw [if_pos (by rw [h]; rfl)]
  · intro h
    have hne : trimChars input ≠ [] := by
      intro h0
      rw [h0] at h
      exact absurd h (List.not_mem_nil _)
    unfold normalizeRelativePath
    rw [if_neg (by simpa [List.isEmpty_iff] using hne)]
    rw [if_pos (by simpa using h)]
  · intro hnul habs
    have hne : trimChars input ≠ [] := by
      intro h0
      rw [h0] at habs
      cases habs
    unfold normalizeRelativePath
    rw [if_neg (by simpa [List.isEmpty_iff] using hne)]
    rw [if_neg (by simpa using hnul)]
    rw [if_pos habs]
  · intro rest2 hnul habs hne hcomp
    unfold normalizeRelativePath
    rw [if_neg (by simpa [List.isEmpty_iff] using hne)]
    rw [if_neg (by simpa using hnul)]
    rw [if_neg (by rw [habs]; exact Bool.false_ne_true)]
    rw [hcomp]
    rw [show resolveComponents root root (.parentDir :: rest2) =
        (if root = root then .error "SysCall Error: Path traversal denied."
         else resolveComponents root root.dropLast rest2) from rfl]
    rw [if_pos rfl]
  · intro out h
    unfold normalizeRelativePath at h
    by_cases h1 : (trimChars input).isEmpty = true
    · rw [if_pos h1] at h
      cases h
    rw [if_neg h1] at h
    by_cases h2 : (trimChars input).contains (Char.ofNat 0) = true
    · rw [if_pos h2] at h
      cases h
    rw [if_neg h2] at h
    by_cases h3 : isAbsolute (trimChars input) = true
    · rw [if_pos h3] at h
      cases h
    rw [if_neg h3] at h
    rcases hr : resolveComponents root root (pathComponents (trimChars input))
      with e | out2
    · rw [hr] at h
      cases h
    · rw [hr] at h
      dsimp only at h
      have hjail := resolveComponents_jail root (pathComponents (trimChars input)) [] out2
        (by rw [List.append_nil]; exact hr)
      by_cases hp : (!root.isPrefixOf out2) = true
      · rw [if_pos hp] at h
        cases h
      · rw [if_neg hp] at h
        cases h
        exact hjail

theorem normalize_relative_path_spec_witness :
    (∃ rest, ["home", "ws"] ++ ["a", "c"] = ["home", "ws"] ++ rest) ∧
    normalizeRelativePath ["home", "ws"] ("/etc/passwd".data) =
      .error "SysCall Error: Absolute paths are not allowed." ∧
    normalizeRelativePath ["home", "ws"] ("../x".data) =
      .error "SysCall Error: Path traversal denied." :=
  ⟨(normalize_relative_path_spec ["home", "ws"] ("a/./b/../c".data)).2.2.2.2
      (["home", "ws"] ++ ["a", "c"]) (by rfl),
   (normalize_relative_path_spec ["home", "ws"] ("/etc/passwd".data)).2.2.1
      (by decide) (by decide),
   (normalize_relative_path_spec ["home", "ws"] ("../x".data)).2.2.2.1
      [PathComp.normal "x"] (by decide) (by decide) (by decide) (by decide)⟩

end AgenticOS
